import Mathlib

/-!
# Verification of the LogiX Dispatch core (pathfinding, assignment, TSP, dispatch, tick)

Shallow embedding of the delivery-simulation core:

* `src/utils/pathfinding.ts` — `getNeighbors`, `getManhattanDistance`, `findPath`
  (best-first search over the 20×20 grid with a strategy-dependent priority key);
* `src/utils/algorithms.ts` — `solveAssignment` (backtracking min-cost matching)
  and `solveTSP` (permutation / nearest-neighbour tour solver);
* the application's `createOrder` (batching & dispatch policy) and
  `handleSimulationTick` (cooking timers, rider movement, rider state machine,
  pending-order dispatch).

Conventions of the embedding:

* JS numbers used as grid coordinates are modelled as `Int`; cumulative hop
  counts as `Nat`; rider speeds and accumulators (JS floats) are modelled with
  exact rational arithmetic `ℚ`.
* The JS `Set<string>` keyed by `"r,c"` strings is modelled as a `List Pos`
  with membership (the key encoding is injective).
* `Array.prototype.sort` is guaranteed stable by the JS spec; a stable sort's
  output is uniquely determined by the comparator and input order, so it is
  modelled by a stable insertion sort.
* The search loop of `findPath` is written with an explicit fuel parameter so
  that it is kernel-computable; fuel `1000` strictly dominates the loop
  variant `queue.length + 2·(number of unvisited grid cells) ≤ 801`, so the
  fuel never runs out on any input (this is proved where completeness is
  needed).
* `performance.now()` timing (`executionTime`) and `Date.now()` wall-clock
  stamps are not observable properties of the algorithms; the tick takes the
  current time as an explicit parameter where the source reads `Date.now()`.
-/

namespace LogiX

/-- Grid dimensions, from `constants.ts` (`GRID_ROWS = 20`, `GRID_COLS = 20`). -/
def GRID_ROWS : Int := 20

/-- Grid dimensions, from `constants.ts`. -/
def GRID_COLS : Int := 20

/-- Tick period in milliseconds, from `constants.ts` (`DELAY_MS = 50`). -/
def DELAY_MS : Nat := 50

/-- Cooking duration in milliseconds, from `constants.ts` (`COOKING_TIME_MS = 15000`). -/
def COOKING_TIME_MS : Nat := 15000

/-- A grid position `{ r, c }` (`types.ts`, `Position`). -/
structure Pos where
  r : Int
  c : Int
deriving DecidableEq, Repr

/-- The four axis-aligned neighbour candidates of a cell, restricted to the
grid, in the source's order Up, Down, Left, Right (`pathfinding.ts`,
`getNeighbors`). -/
def getNeighbors (p : Pos) : List Pos :=
  [Pos.mk (p.r - 1) p.c, Pos.mk (p.r + 1) p.c,
   Pos.mk p.r (p.c - 1), Pos.mk p.r (p.c + 1)].filter
    (fun q => 0 ≤ q.r ∧ q.r < GRID_ROWS ∧ 0 ≤ q.c ∧ q.c < GRID_COLS)

/-- Manhattan distance (`pathfinding.ts`, `getManhattanDistance`). -/
def getManhattanDistance (a b : Pos) : Nat :=
  (a.r - b.r).natAbs + (a.c - b.c).natAbs

/-- The pathfinding strategy selector (`types.ts`, `Algorithm`). -/
inductive Algorithm where
  | DIJKSTRA
  | GREEDY
  | ASTAR
deriving DecidableEq, Repr

/-- A search node (`types.ts`, `PathNode`): position, cumulative distance from
the start, and the back-pointer chain to the start.  The JS `parent` pointer
chain is represented by the list of ancestor positions, nearest ancestor
first, so that the reconstruction loop `while (curr) path.push(curr.pos)`
corresponds to `node.pos :: node.parent` and the returned path is
`(node.pos :: node.parent).reverse`. -/
structure PathNode where
  pos : Pos
  distance : Nat
  parent : List Pos
deriving DecidableEq, Repr

/-- The strategy-dependent priority key of the frontier comparator
(`findPath`, the three `queue.sort` branches): cumulative distance for
Dijkstra, Manhattan heuristic for greedy, their sum for A*. -/
def nodeKey (algo : Algorithm) (endP : Pos) (n : PathNode) : Nat :=
  match algo with
  | Algorithm.DIJKSTRA => n.distance
  | Algorithm.GREEDY => getManhattanDistance n.pos endP
  | Algorithm.ASTAR => n.distance + getManhattanDistance n.pos endP

/-- Insert an element into an already-sorted list, after all elements of
strictly smaller or equal key: the placement a stable sort gives to a
later-arriving element. -/
def insertByKey {α : Type} (key : α → Nat) (x : α) : List α → List α
  | [] => [x]
  | y :: ys => if key y < key x then y :: insertByKey key x ys else x :: y :: ys

/-- Stable sort by an ascending numeric key, modelling the
(stability-guaranteed) JS `Array.prototype.sort` with the numeric
difference comparators used throughout the source. -/
def sortByKey {α : Type} (key : α → Nat) : List α → List α
  | [] => []
  | x :: xs => insertByKey key x (sortByKey key xs)

/-- The result record of `findPath` (`pathfinding.ts`, `PathResult`), without
the wall-clock `executionTime` field (timing is not modelled). -/
structure PathResult where
  path : List Pos
  visitedCount : Nat
  visitedOrder : List Pos
deriving DecidableEq, Repr

/-- The neighbour-expansion loop of `findPath` (`for (const neighbor of
neighbors) ...`): each neighbour that is neither visited nor a wall is marked
visited, recorded in the visit order, and enqueued with distance one more
than the current node and the current node prepended to the parent chain.
Returns the updated `(visited, visitedOrder, queue)`. -/
def expandNeighbors (walls : List Pos) (cur : PathNode) :
    List Pos → List Pos → List Pos → List PathNode → List Pos × List Pos × List PathNode
  | [], visited, visitedOrder, queue => (visited, visitedOrder, queue)
  | q :: ns, visited, visitedOrder, queue =>
    if q ∉ visited ∧ q ∉ walls then
      expandNeighbors walls cur ns (q :: visited) (visitedOrder ++ [q])
        (queue ++ [PathNode.mk q (cur.distance + 1) (cur.pos :: cur.parent)])
    else
      expandNeighbors walls cur ns visited visitedOrder queue

/-- The search loop of `findPath` (`while (queue.length > 0) ...`): sort the
frontier by the strategy key, dequeue the front node, stop with the
reconstructed path if it is the goal, otherwise expand its neighbours.  The
fuel argument makes the recursion structural; `findPath` supplies fuel
strictly greater than the loop variant, so the fuel case is never reached. -/
def findPathLoop (endP : Pos) (walls : List Pos) (algo : Algorithm) :
    Nat → List PathNode → List Pos → List Pos → Nat → Option PathResult
  | 0, _, _, _, _ => none
  | fuel + 1, queue, visited, visitedOrder, visitedCount =>
    match sortByKey (nodeKey algo endP) queue with
    | [] => none
    | cur :: rest =>
      if cur.pos = endP then
        some (PathResult.mk ((cur.pos :: cur.parent).reverse) (visitedCount + 1) visitedOrder)
      else
        match expandNeighbors walls cur (getNeighbors cur.pos) visited visitedOrder rest with
        | (visited', visitedOrder', queue') =>
          findPathLoop endP walls algo fuel queue' visited' visitedOrder' (visitedCount + 1)

/-- `findPath(start, end, walls, algorithm)` (`pathfinding.ts`): best-first
search from `start` to `endP` on the 4-connected 20×20 grid avoiding `walls`.
The start cell is enqueued and marked visited unconditionally. -/
def findPath (start endP : Pos) (walls : List Pos)
    (algo : Algorithm := Algorithm.DIJKSTRA) : Option PathResult :=
  findPathLoop endP walls algo 1000 [PathNode.mk start 0 []] [start] [start] 0

/-! ## Reference: grid walks and breadth-first search

The specification (§4.1, §8) measures `findPath` against "the true grid (BFS)
shortest-path hop count".  A walk is a chain of 4-connected steps; every cell
stepped onto must be inside the grid and off the wall set (the start cell
itself is unconstrained, exactly as in `findPath`, which enqueues the start
unconditionally).  `bfsDist` is textbook breadth-first search by layers. -/

/-- The last cell of the walk `a :: cells`. -/
def lastFrom (a : Pos) (cells : List Pos) : Pos := cells.getLastD a

/-- `OkChain walls a cells`: starting at `a`, the successive cells of `cells`
each are a grid neighbour of the previous cell and avoid the walls. -/
def OkChain (walls : List Pos) : Pos → List Pos → Prop
  | _, [] => True
  | a, q :: rest => q ∈ getNeighbors a ∧ q ∉ walls ∧ OkChain walls q rest

instance OkChain.instDec (walls : List Pos) :
    ∀ (a : Pos) (l : List Pos), Decidable (OkChain walls a l)
  | _, [] => isTrue trivial
  | _, q :: rest =>
    have : Decidable (OkChain walls q rest) := OkChain.instDec walls q rest
    inferInstanceAs (Decidable (_ ∧ _ ∧ _))

/-- There is a walls-avoiding grid walk of exactly `n` hops from `start`
to `e`. -/
def HasPathLen (walls : List Pos) (start e : Pos) (n : Nat) : Prop :=
  ∃ cells : List Pos, OkChain walls start cells ∧ cells.length = n ∧ lastFrom start cells = e

/-- One BFS layer expansion: adjoin every unvisited, non-wall grid neighbour
of the current reach set. -/
def reachStep (walls : List Pos) (l : List Pos) : List Pos :=
  l ++ ((l.flatMap getNeighbors).filter (fun q => q ∉ l ∧ q ∉ walls)).dedup

/-- The cells reachable from `start` in at most `n` hops (layered BFS). -/
def reachList (walls : List Pos) (start : Pos) : Nat → List Pos
  | 0 => [start]
  | n + 1 => reachStep walls (reachList walls start n)

/-- Scan layer indices upward until the goal appears. -/
def bfsSearchFrom (walls : List Pos) (start endP : Pos) : Nat → Nat → Option Nat
  | _, 0 => none
  | n, fuel + 1 =>
    if endP ∈ reachList walls start n then some n
    else bfsSearchFrom walls start endP (n + 1) fuel

/-- The BFS shortest-path hop count from `start` to `endP` (`none` if
unreachable).  401 layers suffice on the 20×20 grid (the reach sets can grow
at most 400 times). -/
def bfsDist (start endP : Pos) (walls : List Pos) : Option Nat :=
  bfsSearchFrom walls start endP 0 401

theorem okChain_nil {walls : List Pos} {a : Pos} : OkChain walls a [] ↔ True := Iff.rfl

theorem okChain_cons {walls : List Pos} {a q : Pos} {rest : List Pos} :
    OkChain walls a (q :: rest) ↔ q ∈ getNeighbors a ∧ q ∉ walls ∧ OkChain walls q rest :=
  Iff.rfl

theorem lastFrom_nil {a : Pos} : lastFrom a [] = a := rfl

theorem lastFrom_cons {a q : Pos} {rest : List Pos} :
    lastFrom a (q :: rest) = lastFrom q rest := List.getLastD_cons a q rest

theorem okChain_append {walls : List Pos} {a : Pos} {l₁ l₂ : List Pos} :
    OkChain walls a (l₁ ++ l₂) ↔ OkChain walls a l₁ ∧ OkChain walls (lastFrom a l₁) l₂ := by
  induction l₁ generalizing a with
  | nil => simp [okChain_nil, lastFrom_nil]
  | cons q rest ih =>
    rw [List.cons_append, okChain_cons, okChain_cons, ih, lastFrom_cons]
    tauto

theorem lastFrom_append {a : Pos} {l₁ l₂ : List Pos} :
    lastFrom a (l₁ ++ l₂) = lastFrom (lastFrom a l₁) l₂ := by
  induction l₁ generalizing a with
  | nil => simp [lastFrom_nil]
  | cons q rest ih => rw [List.cons_append, lastFrom_cons, lastFrom_cons, ih]

theorem okChain_mem_not_wall {walls : List Pos} {a : Pos} {cells : List Pos}
    (h : OkChain walls a cells) {q : Pos} (hq : q ∈ cells) : q ∉ walls := by
  induction cells generalizing a with
  | nil => simp at hq
  | cons x rest ih =>
    obtain ⟨_, hxw, hrest⟩ := h
    rcases List.mem_cons.mp hq with rfl | hq'
    · exact hxw
    · exact ih hrest hq'

theorem hasPathLen_extend {walls : List Pos} {start p q : Pos} {n : Nat}
    (h : HasPathLen walls start p n) (hadj : q ∈ getNeighbors p) (hw : q ∉ walls) :
    HasPathLen walls start q (n + 1) := by
  obtain ⟨cells, hchain, hlen, hlast⟩ := h
  refine ⟨cells ++ [q], ?_, by simp [hlen], ?_⟩
  · exact okChain_append.mpr ⟨hchain, by simp [OkChain, hlast, hadj, hw]⟩
  · simp [lastFrom_append, lastFrom]

theorem mem_reachStep_self {walls : List Pos} {l : List Pos} {p : Pos} (h : p ∈ l) :
    p ∈ reachStep walls l :=
  List.mem_append_left _ h

theorem mem_reachStep_of_adj {walls : List Pos} {l : List Pos} {x q : Pos}
    (hx : x ∈ l) (hadj : q ∈ getNeighbors x) (hw : q ∉ walls) :
    q ∈ reachStep walls l := by
  by_cases hq : q ∈ l
  · exact mem_reachStep_self hq
  · refine List.mem_append_right _ ?_
    rw [List.mem_dedup, List.mem_filter]
    refine ⟨List.mem_flatMap.mpr ⟨x, hx, hadj⟩, ?_⟩
    simp [hq, hw]

theorem reachList_subset_succ {walls : List Pos} {start : Pos} {n : Nat} :
    reachList walls start n ⊆ reachList walls start (n + 1) := by
  intro p hp
  exact mem_reachStep_self hp

theorem reachList_mono {walls : List Pos} {start : Pos} {m n : Nat} (h : m ≤ n) :
    reachList walls start m ⊆ reachList walls start n := by
  induction n with
  | zero => cases Nat.le_zero.mp h; exact fun _ h => h
  | succ k ih =>
    rcases Nat.lt_or_ge m (k + 1) with hlt | hge
    · exact fun p hp => reachList_subset_succ (ih (Nat.lt_succ_iff.mp hlt) hp)
    · have : m = k + 1 := Nat.le_antisymm h hge
      subst this; exact fun _ h => h

theorem mem_reachList_iff {walls : List Pos} {start p : Pos} {n : Nat} :
    p ∈ reachList walls start n ↔ ∃ k, k ≤ n ∧ HasPathLen walls start p k := by
  induction n generalizing p with
  | zero =>
    simp only [reachList, List.mem_singleton]
    constructor
    · rintro rfl
      exact ⟨0, le_refl _, [], True.intro, rfl, rfl⟩
    · rintro ⟨k, hk, cells, hchain, hlen, hlast⟩
      interval_cases k
      · obtain rfl : cells = [] := List.length_eq_zero.mp hlen
        simpa [lastFrom] using hlast.symm
  | succ m ih =>
    constructor
    · intro hp
      rcases List.mem_append.mp hp with hp | hp
      · obtain ⟨k, hk, hlen⟩ := ih.mp hp
        exact ⟨k, Nat.le_succ_of_le hk, hlen⟩
      · rw [List.mem_dedup, List.mem_filter] at hp
        obtain ⟨hflat, hcond⟩ := hp
        obtain ⟨x, hx, hadj⟩ := List.mem_flatMap.mp hflat
        have hw : p ∉ walls := by
          by_contra hw
          simp [hw] at hcond
        obtain ⟨k, hk, hlen⟩ := ih.mp hx
        exact ⟨k + 1, Nat.succ_le_succ hk, hasPathLen_extend hlen hadj hw⟩
    · rintro ⟨k, hk, cells, hchain, hlen, hlast⟩
      rcases Nat.lt_or_ge k (m + 1) with hlt | hge
      · exact reachList_subset_succ (ih.mpr ⟨k, Nat.lt_succ_iff.mp hlt, cells, hchain, hlen, hlast⟩)
      · have hkeq : k = m + 1 := Nat.le_antisymm hk hge
        subst hkeq
        cases hback : cells.getLast? with
        | none =>
          rw [List.getLast?_eq_none_iff.mp hback] at hlen
          exact absurd hlen (by simp)
        | some q =>
          obtain ⟨front, rfl⟩ := List.getLast?_eq_some_iff.mp hback
          have hfrontlen : front.length = m := by simpa using hlen
          obtain ⟨hfront, hstep⟩ := okChain_append.mp hchain
          obtain ⟨hadj, hw, -⟩ := hstep
          have hqlast : q = p := by
            simpa [lastFrom_append, lastFrom_cons, lastFrom_nil] using hlast
          subst hqlast
          exact mem_reachStep_of_adj
            (ih.mpr ⟨m, le_refl _, front, hfront, hfrontlen, rfl⟩) hadj hw

theorem bfsSearchFrom_eq_some {walls : List Pos} {start endP : Pos} :
    ∀ {n fuel d : Nat}, bfsSearchFrom walls start endP n fuel = some d →
      n ≤ d ∧ endP ∈ reachList walls start d ∧
        ∀ k, n ≤ k → k < d → endP ∉ reachList walls start k := by
  intro n fuel
  induction fuel generalizing n with
  | zero => intro d h; exact absurd h (by simp [bfsSearchFrom])
  | succ f ih =>
    intro d h
    rw [bfsSearchFrom] at h
    by_cases hm : endP ∈ reachList walls start n
    · rw [if_pos hm] at h
      obtain rfl : n = d := Option.some.inj h
      exact ⟨le_refl _, hm, fun k hk1 hk2 => absurd hk1 (Nat.not_le_of_lt hk2)⟩
    · rw [if_neg hm] at h
      obtain ⟨h1, h2, h3⟩ := ih h
      refine ⟨Nat.le_of_succ_le h1, h2, fun k hk1 hk2 => ?_⟩
      rcases Nat.eq_or_lt_of_le hk1 with rfl | hlt
      · exact hm
      · exact h3 k hlt hk2

/-- The BFS distance is realized by a walk and is minimal among all walk
lengths. -/
theorem bfsDist_shortest {walls : List Pos} {start endP : Pos} {d : Nat}
    (h : bfsDist start endP walls = some d) :
    HasPathLen walls start endP d ∧ ∀ k, k < d → ¬ HasPathLen walls start endP k := by
  obtain ⟨-, hmem, hmin⟩ := bfsSearchFrom_eq_some h
  obtain ⟨k, hk, hlen⟩ := mem_reachList_iff.mp hmem
  rcases Nat.eq_or_lt_of_le hk with rfl | hlt
  · refine ⟨hlen, fun k' hk' hlen' => ?_⟩
    exact hmin k' (Nat.zero_le _) hk' (mem_reachList_iff.mpr ⟨k', le_refl _, hlen'⟩)
  · exact absurd (mem_reachList_iff.mpr ⟨k, le_refl _, hlen⟩)
      (hmin k (Nat.zero_le _) hlt)

/-! ## Properties of the frontier sort -/

theorem insertByKey_perm {α : Type} (key : α → Nat) (x : α) :
    ∀ l : List α, List.Perm (insertByKey key x l) (x :: l)
  | [] => List.Perm.refl _
  | y :: ys => by
    rw [insertByKey]
    split
    · exact List.Perm.trans ((insertByKey_perm key x ys).cons y) (List.Perm.swap x y ys)
    · exact List.Perm.refl _

theorem sortByKey_perm {α : Type} (key : α → Nat) :
    ∀ l : List α, List.Perm (sortByKey key l) l
  | [] => List.Perm.refl _
  | x :: xs =>
    List.Perm.trans (insertByKey_perm key x (sortByKey key xs))
      ((sortByKey_perm key xs).cons x)

theorem insertByKey_pairwise {α : Type} {key : α → Nat} {x : α} :
    ∀ {l : List α}, List.Pairwise (fun a b => key a ≤ key b) l →
      List.Pairwise (fun a b => key a ≤ key b) (insertByKey key x l) := by
  intro l
  induction l with
  | nil => intro _; exact List.pairwise_singleton _ x
  | cons y ys ih =>
    intro h
    rw [insertByKey]
    rcases List.pairwise_cons.mp h with ⟨hy, hys⟩
    split
    · refine List.pairwise_cons.mpr ⟨?_, ih hys⟩
      intro b hb
      rcases List.mem_cons.mp ((insertByKey_perm key x ys).mem_iff.mp hb) with rfl | hb'
      · exact Nat.le_of_lt (by assumption)
      · exact hy b hb'
    · refine List.pairwise_cons.mpr ⟨?_, h⟩
      intro b hb
      rcases List.mem_cons.mp hb with rfl | hb'
      · exact Nat.le_of_not_lt (by assumption)
      · exact Nat.le_trans (Nat.le_of_not_lt (by assumption)) (hy b hb')

theorem sortByKey_pairwise {α : Type} (key : α → Nat) :
    ∀ l : List α, List.Pairwise (fun a b => key a ≤ key b) (sortByKey key l)
  | [] => List.Pairwise.nil
  | _ :: xs => insertByKey_pairwise (sortByKey_pairwise key xs)

/-- The dequeued element of the sorted frontier has minimal key among all
frontier elements. -/
theorem sortByKey_head_min {α : Type} {key : α → Nat} {l : List α}
    {cur : α} {rest : List α} (h : sortByKey key l = cur :: rest) :
    ∀ n ∈ l, key cur ≤ key n := by
  intro n hn
  have hmem : n ∈ cur :: rest := by
    rw [← h]
    exact ((sortByKey_perm key l).symm.mem_iff).mp hn
  rcases List.mem_cons.mp hmem with rfl | hr
  · exact Nat.le_refl _
  · have := sortByKey_pairwise key l
    rw [h] at this
    exact (List.pairwise_cons.mp this).1 n hr

/-! ## The grid cell inventory and the loop variant -/

/-- All 400 cells of the 20×20 grid. -/
def allCells : List Pos :=
  (List.range 20).flatMap
    (fun r => (List.range 20).map (fun c => Pos.mk (Int.ofNat r) (Int.ofNat c)))

theorem allCells_nodup : allCells.Nodup := by
  rw [allCells, List.nodup_flatMap]
  constructor
  · intro r _
    apply List.Nodup.map ?_ (List.nodup_range 20)
    intro c₁ c₂ hcc
    have : Int.ofNat c₁ = Int.ofNat c₂ := congrArg Pos.c hcc
    exact Int.ofNat.inj this
  · rw [List.pairwise_iff_forall_sublist]
    intro r₁ r₂ hsub
    have hne : r₁ ≠ r₂ := by
      intro h
      subst h
      exact absurd (List.Sublist.nodup hsub (List.nodup_range 20)) (by simp)
    intro p hp₁ hp₂
    rw [List.mem_map] at hp₁ hp₂
    obtain ⟨c₁, -, rfl⟩ := hp₁
    obtain ⟨c₂, -, h⟩ := hp₂
    have : Int.ofNat r₂ = Int.ofNat r₁ := congrArg Pos.r h
    exact hne (Int.ofNat.inj this).symm

theorem mem_allCells {p : Pos} :
    p ∈ allCells ↔ 0 ≤ p.r ∧ p.r < 20 ∧ 0 ≤ p.c ∧ p.c < 20 := by
  rw [allCells, List.mem_flatMap]
  constructor
  · rintro ⟨r, hr, hm⟩
    rw [List.mem_map] at hm
    obtain ⟨c, hc, rfl⟩ := hm
    rw [List.mem_range] at hr hc
    dsimp only
    simp only [Int.ofNat_eq_coe]
    omega
  · rintro ⟨h1, h2, h3, h4⟩
    refine ⟨p.r.toNat, by rw [List.mem_range]; omega, ?_⟩
    rw [List.mem_map]
    refine ⟨p.c.toNat, by rw [List.mem_range]; omega, ?_⟩
    cases p with
    | mk r c =>
      dsimp only at h1 h2 h3 h4 ⊢
      simp only [Pos.mk.injEq, Int.ofNat_eq_coe]
      omega

theorem getNeighbors_subset_allCells {p q : Pos} (h : q ∈ getNeighbors p) :
    q ∈ allCells := by
  rw [getNeighbors, List.mem_filter] at h
  obtain ⟨-, hbounds⟩ := h
  have hb : 0 ≤ q.r ∧ q.r < GRID_ROWS ∧ 0 ≤ q.c ∧ q.c < GRID_COLS :=
    of_decide_eq_true hbounds
  rw [GRID_ROWS, GRID_COLS] at hb
  exact mem_allCells.mpr hb

/-- Number of grid cells not yet marked visited: the decreasing part of the
loop variant. -/
def unvisitedCount (visited : List Pos) : Nat :=
  (allCells.filter (fun p => p ∉ visited)).length

theorem length_filter_drop {α : Type} [DecidableEq α] {P : α → Prop} [DecidablePred P]
    {a : α} (hPa : P a) :
    ∀ {l : List α}, l.Nodup → a ∈ l →
      (l.filter (fun x => P x)).length = (l.filter (fun x => P x ∧ x ≠ a)).length + 1 := by
  intro l
  induction l with
  | nil => intro _ h; simp at h
  | cons x xs ih =>
    intro hnd hmem
    rcases List.mem_cons.mp hmem with rfl | hx
    · have hna : a ∉ xs := (List.nodup_cons.mp hnd).1
      have heq : xs.filter (fun y => decide (P y ∧ y ≠ a)) =
          xs.filter (fun y => decide (P y)) := by
        apply List.filter_congr
        intro b hb
        have hba : b ≠ a := fun hbx => hna (hbx ▸ hb)
        simp [hba]
      simp only [List.filter_cons]
      rw [if_pos (by simpa using hPa), if_neg (by simp), List.length_cons, heq]
    · have hnd' : xs.Nodup := (List.nodup_cons.mp hnd).2
      simp only [List.filter_cons]
      by_cases hPx : P x
      · by_cases hxa : x = a
        · subst hxa
          exact absurd hx (List.nodup_cons.mp hnd).1
        · rw [if_pos (by simpa using hPx), if_pos (by simp [hPx, hxa])]
          simp only [List.length_cons]
          rw [ih hnd' hx]
      · rw [if_neg (by simpa using hPx), if_neg (by simp [hPx])]
        exact ih hnd' hx

theorem unvisitedCount_cons {visited : List Pos} {q : Pos}
    (hq : q ∈ allCells) (hnv : q ∉ visited) :
    unvisitedCount visited = unvisitedCount (q :: visited) + 1 := by
  unfold unvisitedCount
  have h := @length_filter_drop Pos _ (fun p => p ∉ visited) _ q hnv allCells
    allCells_nodup hq
  rw [h]
  congr 2
  apply List.filter_congr
  intro b _
  by_cases hb : b ∈ visited <;> by_cases hbq : b = q <;> simp [hb, hbq]

/-! ## Behaviour of the neighbour-expansion step -/

theorem expand_queue_sub {walls : List Pos} {cur : PathNode} :
    ∀ (ns visited vo : List Pos) (queue : List PathNode) (n : PathNode),
      n ∈ queue → n ∈ (expandNeighbors walls cur ns visited vo queue).2.2 := by
  intro ns
  induction ns with
  | nil => intro visited vo queue n hn; simpa [expandNeighbors] using hn
  | cons q ns ih =>
    intro visited vo queue n hn
    rw [expandNeighbors]
    split
    · exact ih _ _ _ n (List.mem_append_left _ hn)
    · exact ih _ _ _ n hn

theorem expand_queue_new {walls : List Pos} {cur : PathNode} :
    ∀ (ns visited vo : List Pos) (queue : List PathNode) (n : PathNode),
      n ∈ (expandNeighbors walls cur ns visited vo queue).2.2 →
        n ∈ queue ∨ (n.pos ∈ ns ∧ n.pos ∉ walls ∧ n.pos ∉ visited ∧
          n.distance = cur.distance + 1 ∧ n.parent = cur.pos :: cur.parent) := by
  intro ns
  induction ns with
  | nil => intro visited vo queue n hn; left; simpa [expandNeighbors] using hn
  | cons q ns ih =>
    intro visited vo queue n hn
    rw [expandNeighbors] at hn
    split at hn
    · rcases ih _ _ _ n hn with hq | ⟨h1, h2, h3, h4, h5⟩
      · rcases List.mem_append.mp hq with hq' | hq'
        · exact Or.inl hq'
        · right
          obtain rfl : n = PathNode.mk q (cur.distance + 1) (cur.pos :: cur.parent) :=
            List.mem_singleton.mp hq'
          have hcond : q ∉ visited ∧ q ∉ walls := by assumption
          exact ⟨List.mem_cons_self _ _, hcond.2, hcond.1, rfl, rfl⟩
      · exact Or.inr ⟨List.mem_cons_of_mem _ h1, h2, fun hv => h3 (List.mem_cons_of_mem _ hv),
          h4, h5⟩
    · rcases ih _ _ _ n hn with hq | ⟨h1, h2, h3, h4, h5⟩
      · exact Or.inl hq
      · exact Or.inr ⟨List.mem_cons_of_mem _ h1, h2, h3, h4, h5⟩

theorem expand_visited_sub {walls : List Pos} {cur : PathNode} :
    ∀ (ns visited vo : List Pos) (queue : List PathNode) (p : Pos),
      p ∈ visited → p ∈ (expandNeighbors walls cur ns visited vo queue).1 := by
  intro ns
  induction ns with
  | nil => intro visited vo queue p hp; simpa [expandNeighbors] using hp
  | cons q ns ih =>
    intro visited vo queue p hp
    rw [expandNeighbors]
    split
    · exact ih _ _ _ p (List.mem_cons_of_mem _ hp)
    · exact ih _ _ _ p hp

theorem expand_visited_new {walls : List Pos} {cur : PathNode} :
    ∀ (ns visited vo : List Pos) (queue : List PathNode) (p : Pos),
      p ∈ (expandNeighbors walls cur ns visited vo queue).1 →
        p ∈ visited ∨ (p ∈ ns ∧ p ∉ walls) := by
  intro ns
  induction ns with
  | nil => intro visited vo queue p hp; left; simpa [expandNeighbors] using hp
  | cons q ns ih =>
    intro visited vo queue p hp
    rw [expandNeighbors] at hp
    split at hp
    · rcases ih _ _ _ p hp with hv | ⟨h1, h2⟩
      · rcases List.mem_cons.mp hv with rfl | hv'
        · have hcond : p ∉ visited ∧ p ∉ walls := by assumption
          exact Or.inr ⟨List.mem_cons_self _ _, hcond.2⟩
        · exact Or.inl hv'
      · exact Or.inr ⟨List.mem_cons_of_mem _ h1, h2⟩
    · rcases ih _ _ _ p hp with hv | ⟨h1, h2⟩
      · exact Or.inl hv
      · exact Or.inr ⟨List.mem_cons_of_mem _ h1, h2⟩

theorem expand_closure {walls : List Pos} {cur : PathNode} :
    ∀ (ns visited vo : List Pos) (queue : List PathNode) (x : Pos),
      x ∈ ns → x ∉ walls → x ∈ (expandNeighbors walls cur ns visited vo queue).1 := by
  intro ns
  induction ns with
  | nil => intro visited vo queue x hx; simp at hx
  | cons q ns ih =>
    intro visited vo queue x hx hxw
    rw [expandNeighbors]
    by_cases hc : q ∉ visited ∧ q ∉ walls
    · rw [if_pos hc]
      rcases List.mem_cons.mp hx with rfl | hx'
      · exact expand_visited_sub _ _ _ _ x (List.mem_cons_self _ _)
      · exact ih _ _ _ x hx' hxw
    · rw [if_neg hc]
      rcases List.mem_cons.mp hx with rfl | hx'
      · have hxv : x ∈ visited := by
          by_contra hxv
          exact hc ⟨hxv, hxw⟩
        exact expand_visited_sub _ _ _ _ x hxv
      · exact ih _ _ _ x hx' hxw

theorem expand_visited_node {walls : List Pos} {cur : PathNode} :
    ∀ (ns visited vo : List Pos) (queue : List PathNode) (p : Pos),
      p ∈ (expandNeighbors walls cur ns visited vo queue).1 →
        p ∈ visited ∨ ∃ n ∈ (expandNeighbors walls cur ns visited vo queue).2.2, n.pos = p := by
  intro ns
  induction ns with
  | nil => intro visited vo queue p hp; left; simpa [expandNeighbors] using hp
  | cons q ns ih =>
    intro visited vo queue p hp
    rw [expandNeighbors] at hp ⊢
    by_cases hc : q ∉ visited ∧ q ∉ walls
    · rw [if_pos hc] at hp ⊢
      rcases ih _ _ _ p hp with hv | hnode
      · rcases List.mem_cons.mp hv with rfl | hv'
        · exact Or.inr ⟨PathNode.mk p (cur.distance + 1) (cur.pos :: cur.parent),
            expand_queue_sub _ _ _ _ _ (List.mem_append_right _ (List.mem_singleton_self _)),
            rfl⟩
        · exact Or.inl hv'
      · exact Or.inr hnode
    · rw [if_neg hc] at hp ⊢
      exact ih _ _ _ p hp

theorem expand_measure {walls : List Pos} {cur : PathNode} :
    ∀ (ns visited vo : List Pos) (queue : List PathNode),
      (∀ x ∈ ns, x ∈ allCells) →
      (expandNeighbors walls cur ns visited vo queue).2.2.length +
          2 * unvisitedCount (expandNeighbors walls cur ns visited vo queue).1 ≤
        queue.length + 2 * unvisitedCount visited := by
  intro ns
  induction ns with
  | nil => intro visited vo queue _; simp [expandNeighbors]
  | cons q ns ih =>
    intro visited vo queue hcells
    rw [expandNeighbors]
    split
    · have hcond : q ∉ visited ∧ q ∉ walls := by assumption
      have hu := unvisitedCount_cons (hcells q (List.mem_cons_self _ _)) hcond.1
      have := ih (q :: visited) (vo ++ [q])
        (queue ++ [PathNode.mk q (cur.distance + 1) (cur.pos :: cur.parent)])
        (fun x hx => hcells x (List.mem_cons_of_mem _ hx))
      simp only [List.length_append, List.length_singleton] at this
      omega
    · exact ih _ _ _ (fun x hx => hcells x (List.mem_cons_of_mem _ hx))

/-! ## The search invariant -/

/-- The reversed back-pointer chain of a search node: the list
`[node's cell, its parent's cell, …, start]`, each cell a grid neighbour of
its successor and off the walls (the final `start` is unconstrained). -/
def RevChain (walls : List Pos) (start : Pos) : List Pos → Prop
  | [] => False
  | [p] => p = start
  | p :: q :: rest => p ∈ getNeighbors q ∧ p ∉ walls ∧ RevChain walls start (q :: rest)

/-- Every node in the frontier carries a faithful back-pointer chain whose
hop count is its `distance` field. -/
def GoodNode (walls : List Pos) (start : Pos) (n : PathNode) : Prop :=
  RevChain walls start (n.pos :: n.parent) ∧ n.parent.length = n.distance

/-- `d` is the exact shortest hop count of a walls-avoiding walk from
`start` to `p`. -/
def ShortestTo (walls : List Pos) (start p : Pos) (d : Nat) : Prop :=
  HasPathLen walls start p d ∧ ∀ k, k < d → ¬ HasPathLen walls start p k

theorem revChain_to_walk {walls : List Pos} {start : Pos} :
    ∀ {t : List Pos} {p : Pos}, RevChain walls start (p :: t) →
      ∃ cells, (p :: t).reverse = start :: cells ∧ OkChain walls start cells ∧
        cells.length = t.length ∧ lastFrom start cells = p := by
  intro t
  induction t with
  | nil =>
    intro p h
    obtain rfl : p = start := h
    exact ⟨[], rfl, trivial, rfl, rfl⟩
  | cons q rest ih =>
    intro p h
    obtain ⟨hadj, hw, h'⟩ := h
    obtain ⟨cells, hrev, hok, hlen, hlast⟩ := ih h'
    refine ⟨cells ++ [p], ?_, ?_, by simp [hlen], ?_⟩
    · rw [List.reverse_cons, hrev]
      rfl
    · exact okChain_append.mpr ⟨hok, by rw [hlast]; exact ⟨hadj, hw, trivial⟩⟩
    · rw [lastFrom_append]
      rfl

theorem goodNode_hasPathLen {walls : List Pos} {start : Pos} {n : PathNode}
    (h : GoodNode walls start n) : HasPathLen walls start n.pos n.distance := by
  obtain ⟨hchain, hlen⟩ := h
  obtain ⟨cells, -, hok, hclen, hlast⟩ := revChain_to_walk hchain
  exact ⟨cells, hok, by rw [hclen, hlen], hlast⟩

/-- Any walk from inside the visited set to outside it crosses the frontier:
the walk decomposes around a first step from a visited cell to an unvisited
one. -/
theorem chain_crossing {walls visited : List Pos} :
    ∀ {cells : List Pos} {p0 : Pos}, OkChain walls p0 cells → p0 ∈ visited →
      lastFrom p0 cells ∉ visited →
      ∃ pre z post, cells = pre ++ z :: post ∧ lastFrom p0 pre ∈ visited ∧ z ∉ visited := by
  intro cells
  induction cells with
  | nil => intro p0 _ hp0 hlast; exact absurd hp0 (by simpa [lastFrom_nil] using hlast)
  | cons c rest ih =>
    intro p0 hchain hp0 hlast
    by_cases hc : c ∈ visited
    · obtain ⟨-, -, h'⟩ := hchain
      rw [lastFrom_cons] at hlast
      obtain ⟨pre, z, post, heq, hpre, hz⟩ := ih h' hc hlast
      exact ⟨c :: pre, z, post, by rw [heq, List.cons_append], by rwa [lastFrom_cons], hz⟩
    · exact ⟨[], c, rest, rfl, by simpa [lastFrom_nil] using hp0, hc⟩

/-- If the visited set contains the start and is closed under valid
neighbour steps, it contains the endpoint of every walk from the start. -/
theorem closed_visited_reach {walls visited : List Pos} {start : Pos}
    (hst : start ∈ visited)
    (hcl : ∀ p ∈ visited, ∀ q ∈ getNeighbors p, q ∉ walls → q ∈ visited) :
    ∀ cells, OkChain walls start cells → lastFrom start cells ∈ visited := by
  intro cells
  induction cells generalizing start with
  | nil => intro _; simpa [lastFrom_nil] using hst
  | cons c rest ih =>
    intro hchain
    obtain ⟨hadj, hw, h'⟩ := hchain
    rw [lastFrom_cons]
    exact ih (hcl start hst c hadj hw) h'

/-- The invariant of the search loop of `findPath`, for every strategy. -/
structure SearchInv (walls : List Pos) (start endP : Pos)
    (queue : List PathNode) (visited : List Pos) : Prop where
  start_mem : start ∈ visited
  queue_visited : ∀ n ∈ queue, n.pos ∈ visited
  queue_good : ∀ n ∈ queue, GoodNode walls start n
  visited_ok : ∀ p ∈ visited, p = start ∨ (p ∈ allCells ∧ p ∉ walls)
  closure : ∀ p ∈ visited,
    (∃ n ∈ queue, n.pos = p) ∨ ∀ q ∈ getNeighbors p, q ∉ walls → q ∈ visited
  end_node : endP ∈ visited → ∃ n ∈ queue, n.pos = endP

/-- Once the frontier is empty, the visited set is neighbour-closed, so the
goal is unreachable (otherwise it would be visited, hence still in the
frontier). -/
theorem searchInv_empty_unreachable {walls : List Pos} {start endP : Pos}
    {visited : List Pos} (hinv : SearchInv walls start endP [] visited) :
    ∀ k, ¬ HasPathLen walls start endP k := by
  rintro k ⟨cells, hok, -, hlast⟩
  have hcl : ∀ p ∈ visited, ∀ q ∈ getNeighbors p, q ∉ walls → q ∈ visited := by
    intro p hp
    rcases hinv.closure p hp with ⟨n, hn, -⟩ | h
    · simp at hn
    · exact h
  have hend : endP ∈ visited := hlast ▸ closed_visited_reach hinv.start_mem hcl cells hok
  obtain ⟨n, hn, -⟩ := hinv.end_node hend
  simp at hn

/-- Master specification of the search loop.  Given the invariant and enough
fuel, the loop either returns a walk from `start` to `endP` (of exactly the
shortest length, for the Dijkstra strategy) or correctly reports that `endP`
is unreachable. -/
theorem findPathLoop_spec (walls : List Pos) (start endP : Pos) (algo : Algorithm) :
    ∀ (fuel : Nat) (queue : List PathNode) (visited vo : List Pos) (cnt : Nat),
      SearchInv walls start endP queue visited →
      (algo = Algorithm.DIJKSTRA →
        ∀ n ∈ queue, ShortestTo walls start n.pos n.distance) →
      queue.length + 2 * unvisitedCount visited ≤ fuel →
      (match findPathLoop endP walls algo fuel queue visited vo cnt with
       | some res =>
           (∃ cells, res.path = start :: cells ∧ OkChain walls start cells ∧
              lastFrom start cells = endP) ∧
           (algo = Algorithm.DIJKSTRA → ∀ d, ShortestTo walls start endP d →
              res.path.length = d + 1)
       | none => ∀ k, ¬ HasPathLen walls start endP k) := by
  intro fuel
  induction fuel with
  | zero =>
    intro queue visited vo cnt hinv _ hfuel
    have hq : queue = [] := List.length_eq_zero.mp (by omega)
    subst hq
    rw [findPathLoop]
    exact searchInv_empty_unreachable hinv
  | succ fuel ih =>
    intro queue visited vo cnt hinv hdij hfuel
    cases hsort : sortByKey (nodeKey algo endP) queue with
    | nil =>
      have hq : queue = [] := by
        have hperm := sortByKey_perm (nodeKey algo endP) queue
        rw [hsort] at hperm
        exact (hperm.symm).eq_nil
      subst hq
      simp only [findPathLoop, hsort]
      exact searchInv_empty_unreachable hinv
    | cons cur rest =>
      have hperm : List.Perm (cur :: rest) queue := by
        have := sortByKey_perm (nodeKey algo endP) queue
        rwa [hsort] at this
      have hcur_mem : cur ∈ queue := hperm.mem_iff.mp (List.mem_cons_self _ _)
      have hrest_q : ∀ n ∈ rest, n ∈ queue :=
        fun n hn => hperm.mem_iff.mp (List.mem_cons_of_mem _ hn)
      have hcur_good : GoodNode walls start cur := hinv.queue_good cur hcur_mem
      by_cases hgoal : cur.pos = endP
      · simp only [findPathLoop, hsort, if_pos hgoal]
        obtain ⟨cells, hrev, hok, hclen, hlast⟩ := revChain_to_walk hcur_good.1
        constructor
        · exact ⟨cells, hrev, hok, hgoal ▸ hlast⟩
        · intro halgo d hd
          have hst := hdij halgo cur hcur_mem
          rw [hgoal] at hst
          have hdd : cur.distance = d := by
            rcases Nat.lt_trichotomy cur.distance d with h | h | h
            · exact absurd hst.1 (hd.2 _ h)
            · exact h
            · exact absurd hd.1 (hst.2 _ h)
          simp only [List.length_reverse, List.length_cons, hcur_good.2, hdd]
      · rcases hEdef : expandNeighbors walls cur (getNeighbors cur.pos) visited vo rest
          with ⟨v', vo', q'⟩
        simp only [findPathLoop, hsort, if_neg hgoal, hEdef]
        have hq_sub : ∀ n ∈ rest, n ∈ q' := by
          intro n hn
          have h2 := @expand_queue_sub walls cur (getNeighbors cur.pos) visited vo rest n hn
          rwa [hEdef] at h2
        have hq_new : ∀ n ∈ q', n ∈ rest ∨ (n.pos ∈ getNeighbors cur.pos ∧ n.pos ∉ walls ∧
            n.pos ∉ visited ∧ n.distance = cur.distance + 1 ∧
            n.parent = cur.pos :: cur.parent) := by
          intro n hn
          refine @expand_queue_new walls cur (getNeighbors cur.pos) visited vo rest n ?_
          rw [hEdef]
          exact hn
        have hv_sub : ∀ p ∈ visited, p ∈ v' := by
          intro p hp
          have h2 := @expand_visited_sub walls cur (getNeighbors cur.pos) visited vo rest p hp
          rwa [hEdef] at h2
        have hv_new : ∀ p ∈ v', p ∈ visited ∨ (p ∈ getNeighbors cur.pos ∧ p ∉ walls) := by
          intro p hp
          refine @expand_visited_new walls cur (getNeighbors cur.pos) visited vo rest p ?_
          rw [hEdef]
          exact hp
        have hv_node : ∀ p ∈ v', p ∈ visited ∨ ∃ n ∈ q', n.pos = p := by
          intro p hp
          have h2 := @expand_visited_node walls cur (getNeighbors cur.pos) visited vo rest p
            (by rw [hEdef]; exact hp)
          rwa [hEdef] at h2
        have hcl_new : ∀ x ∈ getNeighbors cur.pos, x ∉ walls → x ∈ v' := by
          intro x hx hxw
          have h2 := @expand_closure walls cur (getNeighbors cur.pos) visited vo rest x hx hxw
          rwa [hEdef] at h2
        have hinv' : SearchInv walls start endP q' v' := by
          constructor
          · exact hv_sub start hinv.start_mem
          · intro n hn
            rcases hq_new n hn with hr | ⟨h1, h2, -, -, -⟩
            · exact hv_sub _ (hinv.queue_visited n (hrest_q n hr))
            · exact hcl_new _ h1 h2
          · intro n hn
            rcases hq_new n hn with hr | ⟨h1, h2, -, h4, h5⟩
            · exact hinv.queue_good n (hrest_q n hr)
            · refine ⟨?_, ?_⟩
              · rw [h5]
                exact ⟨h1, h2, hcur_good.1⟩
              · rw [h5, h4, List.length_cons, hcur_good.2]
          · intro p hp
            rcases hv_new p hp with hv | ⟨h1, h2⟩
            · rcases hinv.visited_ok p hv with rfl | hok
              · exact Or.inl rfl
              · exact Or.inr hok
            · exact Or.inr ⟨getNeighbors_subset_allCells h1, h2⟩
          · intro p hp
            by_cases hpv : p ∈ visited
            · rcases hinv.closure p hpv with ⟨n, hn, hnp⟩ | hclosed
              · rcases List.mem_cons.mp (hperm.symm.mem_iff.mp hn) with rfl | hr
                · right
                  intro q hq hqw
                  rw [← hnp] at hq
                  exact hcl_new q hq hqw
                · exact Or.inl ⟨n, hq_sub n hr, hnp⟩
              · right
                intro q hq hqw
                exact hv_sub _ (hclosed q hq hqw)
            · rcases hv_node p hp with hv | hnode
              · exact absurd hv hpv
              · exact Or.inl hnode
          · intro hend
            by_cases hev : endP ∈ visited
            · obtain ⟨n, hn, hnp⟩ := hinv.end_node hev
              rcases List.mem_cons.mp (hperm.symm.mem_iff.mp hn) with rfl | hr
              · exact absurd hnp hgoal
              · exact ⟨n, hq_sub n hr, hnp⟩
            · rcases hv_node endP hend with hv | h
              · exact absurd hv hev
              · exact h
        have hdij' : algo = Algorithm.DIJKSTRA →
            ∀ n ∈ q', ShortestTo walls start n.pos n.distance := by
          intro halgo n hn
          subst halgo
          rcases hq_new n hn with hr | ⟨h1, h2, h3, h4, -⟩
          · exact hdij rfl n (hrest_q n hr)
          · constructor
            · rw [h4]
              exact hasPathLen_extend (goodNode_hasPathLen hcur_good) h1 h2
            · rw [h4]
              rintro k hk ⟨cells, hok, hlen, hlast⟩
              have hlast' : lastFrom start cells ∉ visited := by rw [hlast]; exact h3
              obtain ⟨pre, z, post, hceq, hpre, hz⟩ :=
                chain_crossing hok hinv.start_mem hlast'
              obtain ⟨hokpre, hokz⟩ := okChain_append.mp (hceq ▸ hok)
              obtain ⟨hzadj, hzw, -⟩ := hokz
              have hypath : HasPathLen walls start (lastFrom start pre) pre.length :=
                ⟨pre, hokpre, rfl, rfl⟩
              rcases hinv.closure _ hpre with ⟨ny, hny, hnyp⟩ | hclosed
              · have hnyshort := hdij rfl ny hny
                rw [hnyp] at hnyshort
                have hny_le : ny.distance ≤ pre.length := by
                  by_contra hlt
                  exact hnyshort.2 pre.length (Nat.lt_of_not_le hlt) hypath
                have hkey : cur.distance ≤ ny.distance := sortByKey_head_min hsort ny hny
                have hklen : pre.length + 1 ≤ k := by
                  rw [hceq] at hlen
                  simp only [List.length_append, List.length_cons] at hlen
                  omega
                omega
              · exact absurd (hclosed z hzadj hzw) hz
        have hfuel' : q'.length + 2 * unvisitedCount v' ≤ fuel := by
          have hm := @expand_measure walls cur (getNeighbors cur.pos) visited vo rest
            (fun x hx => getNeighbors_subset_allCells hx)
          rw [hEdef] at hm
          dsimp only at hm
          have hqlen : queue.length = rest.length + 1 := by
            have := hperm.length_eq
            simp at this
            omega
          omega
        exact ih q' v' vo' (cnt + 1) hinv' hdij' hfuel'

set_option maxRecDepth 4000 in
theorem allCells_length : allCells.length = 400 := by decide

/-- The top-level specification of `findPath`: on success the result path is
a walk `start :: cells` ending at `endP` whose stepped-on cells avoid the
walls; with the Dijkstra strategy its length is exactly one more than the
shortest hop count; on failure no walls-avoiding walk exists at all. -/
theorem findPath_spec (start endP : Pos) (walls : List Pos) (algo : Algorithm) :
    match findPath start endP walls algo with
    | some res =>
        (∃ cells, res.path = start :: cells ∧ OkChain walls start cells ∧
           lastFrom start cells = endP) ∧
        (algo = Algorithm.DIJKSTRA → ∀ d, ShortestTo walls start endP d →
           res.path.length = d + 1)
    | none => ∀ k, ¬ HasPathLen walls start endP k := by
  apply findPathLoop_spec
  · constructor
    · exact List.mem_singleton_self _
    · intro n hn
      obtain rfl := List.mem_singleton.mp hn
      exact List.mem_singleton_self _
    · intro n hn
      obtain rfl := List.mem_singleton.mp hn
      exact ⟨rfl, rfl⟩
    · intro p hp
      exact Or.inl (List.mem_singleton.mp hp)
    · intro p hp
      obtain rfl := List.mem_singleton.mp hp
      exact Or.inl ⟨PathNode.mk p 0 [], List.mem_singleton_self _, rfl⟩
    · intro hend
      obtain rfl := List.mem_singleton.mp hend
      exact ⟨PathNode.mk endP 0 [], List.mem_singleton_self _, rfl⟩
  · intro _ n hn
    obtain rfl := List.mem_singleton.mp hn
    exact ⟨⟨[], trivial, rfl, rfl⟩, fun k hk => absurd hk (Nat.not_lt_zero k)⟩
  · have hle : unvisitedCount [start] ≤ allCells.length := List.length_filter_le _ _
    have h400 := allCells_length
    simp only [List.length_singleton]
    omega

/-- Membership in `getNeighbors p` is exactly: on the grid and at Manhattan
distance 1 from `p`. -/
theorem mem_getNeighbors_iff {p q : Pos} :
    q ∈ getNeighbors p ↔
      (0 ≤ q.r ∧ q.r < 20 ∧ 0 ≤ q.c ∧ q.c < 20) ∧ getManhattanDistance p q = 1 := by
  cases p with
  | mk pr pc =>
    cases q with
    | mk qr qc =>
      rw [getNeighbors, getManhattanDistance]
      simp only [List.mem_filter, List.mem_cons, List.not_mem_nil, or_false,
        Pos.mk.injEq, decide_eq_true_eq, GRID_ROWS, GRID_COLS]
      constructor
      · rintro ⟨hmem, h1, h2, h3, h4⟩
        refine ⟨⟨h1, h2, h3, h4⟩, ?_⟩
        rcases hmem with ⟨rfl, rfl⟩ | ⟨rfl, rfl⟩ | ⟨rfl, rfl⟩ | ⟨rfl, rfl⟩ <;> omega
      · rintro ⟨⟨h1, h2, h3, h4⟩, hman⟩
        refine ⟨?_, h1, h2, h3, h4⟩
        omega

theorem getLast?_cons_eq_lastFrom : ∀ (l : List Pos) (a : Pos),
    (a :: l).getLast? = some (lastFrom a l)
  | [], _ => rfl
  | x :: xs, a => by
    rw [List.getLast?_cons_cons, getLast?_cons_eq_lastFrom xs x, lastFrom_cons]

/-- One unfolding step of the search loop. -/
theorem findPathLoop_succ (endP : Pos) (walls : List Pos) (algo : Algorithm)
    (fuel : Nat) (queue : List PathNode) (visited visitedOrder : List Pos)
    (visitedCount : Nat) :
    findPathLoop endP walls algo (fuel + 1) queue visited visitedOrder visitedCount =
      match sortByKey (nodeKey algo endP) queue with
      | [] => none
      | cur :: rest =>
        if cur.pos = endP then
          some (PathResult.mk ((cur.pos :: cur.parent).reverse) (visitedCount + 1)
            visitedOrder)
        else
          match expandNeighbors walls cur (getNeighbors cur.pos) visited visitedOrder rest with
          | (visited', visitedOrder', queue') =>
            findPathLoop endP walls algo fuel queue' visited' visitedOrder'
              (visitedCount + 1) := rfl

/-- If the goal can never be enqueued (its surroundings are walls and the
start is not beside it), the search loop never succeeds. -/
theorem findPathLoop_never_end {walls : List Pos} {s e : Pos} {algo : Algorithm}
    (hnadj : getManhattanDistance s e ≠ 1)
    (hencl : ∀ q ∈ getNeighbors e, q ∈ walls) :
    ∀ (fuel : Nat) (queue : List PathNode) (visited vo : List Pos) (cnt : Nat),
      (∀ n ∈ queue, n.pos ≠ e ∧ (n.pos = s ∨ (n.pos ∈ allCells ∧ n.pos ∉ walls))) →
      findPathLoop e walls algo fuel queue visited vo cnt = none := by
  intro fuel
  induction fuel with
  | zero => intro queue visited vo cnt _; rfl
  | succ fuel ih =>
    intro queue visited vo cnt hq
    cases hsort : sortByKey (nodeKey algo e) queue with
    | nil => simp [findPathLoop_succ, hsort]
    | cons cur rest =>
      have hperm : List.Perm (cur :: rest) queue := by
        have := sortByKey_perm (nodeKey algo e) queue
        rwa [hsort] at this
      have hcur := hq cur (hperm.mem_iff.mp (List.mem_cons_self _ _))
      rcases hEdef : expandNeighbors walls cur (getNeighbors cur.pos) visited vo rest
        with ⟨v', vo', q'⟩
      rw [findPathLoop_succ, hsort]
      simp only [if_neg hcur.1, hEdef]
      apply ih
      intro n hn
      have hn' := @expand_queue_new walls cur (getNeighbors cur.pos) visited vo rest n
        (by rw [hEdef]; exact hn)
      rcases hn' with hr | ⟨h1, h2, -, -, -⟩
      · exact hq n (hperm.mem_iff.mp (List.mem_cons_of_mem _ hr))
      · constructor
        · intro hne
          rw [hne] at h1
          have hm := mem_getNeighbors_iff.mp h1
          rcases hcur.2 with hs | ⟨hcell, hcw⟩
          · rw [hs] at hm
            exact hnadj hm.2
          · have hcurmem : cur.pos ∈ getNeighbors e := by
              rw [mem_getNeighbors_iff]
              refine ⟨mem_allCells.mp hcell, ?_⟩
              have hm2 := hm.2
              rw [getManhattanDistance] at hm2 ⊢
              omega
            exact hcw (hencl _ hcurmem)
        · exact Or.inr ⟨getNeighbors_subset_allCells h1, h2⟩

/-! ## Claim theorems for the Pathfinder (C1, C3, C6, C10) -/

/-- C1 (amended): for every wall configuration and start/end with BFS
shortest hop count `d`, the DIJKSTRA strategy returns a path with exactly
`d + 1` cells (`d` hops, the true shortest), and each of the three
strategies returns a path that starts at `start`, ends at `end`, and whose
stepped-on cells are 4-adjacent consecutive, on-grid, walls-avoiding cells.
(The original claim's assertion that ASTAR is also shortest is refuted by
`C1_counterexample`.) -/
theorem C1_theorem (walls : List Pos) (start endP : Pos) (d : Nat)
    (hbfs : bfsDist start endP walls = some d) :
    (∃ res, findPath start endP walls Algorithm.DIJKSTRA = some res ∧
        res.path.length = d + 1) ∧
    (∀ algo : Algorithm, ∃ res, findPath start endP walls algo = some res ∧
        ∃ cells, res.path = start :: cells ∧ OkChain walls start cells ∧
          lastFrom start cells = endP) := by
  obtain ⟨hlen, hmin⟩ := bfsDist_shortest hbfs
  have hshort : ShortestTo walls start endP d := ⟨hlen, hmin⟩
  have hall : ∀ algo : Algorithm, ∃ res, findPath start endP walls algo = some res ∧
      (∃ cells, res.path = start :: cells ∧ OkChain walls start cells ∧
        lastFrom start cells = endP) ∧
      (algo = Algorithm.DIJKSTRA → ∀ k, ShortestTo walls start endP k →
        res.path.length = k + 1) := by
    intro algo
    have hs := findPath_spec start endP walls algo
    cases h : findPath start endP walls algo with
    | none =>
      rw [h] at hs
      exact absurd hlen (hs d)
    | some res =>
      rw [h] at hs
      exact ⟨res, rfl, hs.1, hs.2⟩
  constructor
  · obtain ⟨res, h1, -, h3⟩ := hall Algorithm.DIJKSTRA
    exact ⟨res, h1, h3 rfl d hshort⟩
  · intro algo
    obtain ⟨res, h1, h2, -⟩ := hall algo
    exact ⟨res, h1, h2⟩

/-- C1 counterexample: with walls `(0,2), (1,3), (2,1), (2,3)`, the BFS
shortest hop count from `(2,0)` to `(0,3)` is 9 (10 cells), but the ASTAR
strategy returns a 12-cell path (11 hops): marking cells visited at enqueue
time freezes a suboptimal cumulative distance, so this A* variant is not
optimal. -/
theorem C1_counterexample :
    bfsDist ⟨2, 0⟩ ⟨0, 3⟩ [⟨0, 2⟩, ⟨1, 3⟩, ⟨2, 1⟩, ⟨2, 3⟩] = some 9 ∧
    (findPath ⟨2, 0⟩ ⟨0, 3⟩ [⟨0, 2⟩, ⟨1, 3⟩, ⟨2, 1⟩, ⟨2, 3⟩] Algorithm.ASTAR).map
      (fun r => r.path.length) = some 12 ∧
    (12 : Nat) ≠ 9 + 1 :=
  ⟨by decide, by decide, by decide⟩

/-- C1 witness: on an empty grid the BFS distance from `(0,0)` to `(0,2)` is
2 and the theorem applies. -/
theorem C1_witness :
    (∃ res, findPath ⟨0, 0⟩ ⟨0, 2⟩ [] Algorithm.DIJKSTRA = some res ∧
        res.path.length = 2 + 1) ∧
    (∀ algo : Algorithm, ∃ res, findPath ⟨0, 0⟩ ⟨0, 2⟩ [] algo = some res ∧
        ∃ cells, res.path = ⟨0, 0⟩ :: cells ∧ OkChain [] ⟨0, 0⟩ cells ∧
          lastFrom ⟨0, 0⟩ cells = ⟨0, 2⟩) :=
  C1_theorem [] ⟨0, 0⟩ ⟨0, 2⟩ 2 (by decide)

/-- C3 (amended): every cell of a returned path other than the start cell is
off the wall set (the start cell itself can be a wall, since `findPath`
enqueues it unconditionally — see `C3_counterexample`). -/
theorem C3_theorem (walls : List Pos) (s e : Pos) (algo : Algorithm)
    (res : PathResult) (h : findPath s e walls algo = some res) :
    ∀ q ∈ res.path, q ∈ walls → q = s := by
  have hs := findPath_spec s e walls algo
  rw [h] at hs
  obtain ⟨⟨cells, hpath, hok, -⟩, -⟩ := hs
  intro q hq hqw
  rw [hpath] at hq
  rcases List.mem_cons.mp hq with rfl | hq'
  · rfl
  · exact absurd hqw (okChain_mem_not_wall hok hq')

/-- C3 counterexample: starting on a wall cell, the returned path contains
that wall cell, so the unrestricted claim "no path cell is a wall" fails. -/
theorem C3_counterexample :
    (findPath ⟨0, 1⟩ ⟨0, 0⟩ [⟨0, 1⟩, ⟨1, 0⟩] Algorithm.DIJKSTRA).map PathResult.path =
      some [⟨0, 1⟩, ⟨0, 0⟩] ∧
    (⟨0, 1⟩ : Pos) ∈ ([⟨0, 1⟩, ⟨1, 0⟩] : List Pos) ∧
    (⟨0, 1⟩ : Pos) ∈ ([⟨0, 1⟩, ⟨0, 0⟩] : List Pos) :=
  ⟨by decide, by decide, by decide⟩

/-- C3 witness: a concrete successful search whose path cells are checked
against the wall set. -/
theorem C3_witness :
    (findPath ⟨0, 0⟩ ⟨0, 2⟩ [⟨1, 0⟩] Algorithm.DIJKSTRA).map PathResult.path =
      some [⟨0, 0⟩, ⟨0, 1⟩, ⟨0, 2⟩] ∧
    ¬ ((⟨0, 1⟩ : Pos) ∈ ([⟨1, 0⟩] : List Pos)) := by
  have h := C3_theorem [⟨1, 0⟩] ⟨0, 0⟩ ⟨0, 2⟩ Algorithm.DIJKSTRA
    (PathResult.mk [⟨0, 0⟩, ⟨0, 1⟩, ⟨0, 2⟩]
      4 [⟨0, 0⟩, ⟨0, 1⟩, ⟨1, 1⟩, ⟨0, 2⟩, ⟨2, 1⟩, ⟨1, 2⟩]) (by decide)
  refine ⟨by decide, fun hw => ?_⟩
  have h01 := h ⟨0, 1⟩ (by decide) hw
  exact absurd h01 (by decide)

/-- C6 (amended): if `end` differs from `start`, every grid neighbour of
`end` is a wall, and `start` is not itself adjacent to `end` (i.e. not one
of the enclosing wall cells), then all three strategies return `NOT_FOUND`.
(Without the adjacency proviso the claim fails: see `C6_counterexample`.) -/
theorem C6_theorem (walls : List Pos) (s e : Pos) (algo : Algorithm)
    (hne : s ≠ e) (hnadj : getManhattanDistance s e ≠ 1)
    (hencl : ∀ q ∈ getNeighbors e, q ∈ walls) :
    findPath s e walls algo = none := by
  apply findPathLoop_never_end hnadj hencl
  intro n hn
  obtain rfl := List.mem_singleton.mp hn
  exact ⟨hne, Or.inl rfl⟩

/-- C6 counterexample: `(0,0)` is fully enclosed by the walls `(0,1)` and
`(1,0)` and differs from the start, yet when the start is one of the
enclosing wall cells all three strategies still find a path. -/
theorem C6_counterexample :
    (⟨0, 1⟩ : Pos) ≠ ⟨0, 0⟩ ∧
    (∀ q ∈ getNeighbors ⟨0, 0⟩, q ∈ ([⟨0, 1⟩, ⟨1, 0⟩] : List Pos)) ∧
    findPath ⟨0, 1⟩ ⟨0, 0⟩ [⟨0, 1⟩, ⟨1, 0⟩] Algorithm.DIJKSTRA ≠ none ∧
    findPath ⟨0, 1⟩ ⟨0, 0⟩ [⟨0, 1⟩, ⟨1, 0⟩] Algorithm.GREEDY ≠ none ∧
    findPath ⟨0, 1⟩ ⟨0, 0⟩ [⟨0, 1⟩, ⟨1, 0⟩] Algorithm.ASTAR ≠ none :=
  ⟨by decide, by decide, by decide, by decide, by decide⟩

/-- C6 witness: with the start away from the enclosure, all three
strategies return `none`. -/
theorem C6_witness :
    findPath ⟨5, 5⟩ ⟨0, 0⟩ [⟨0, 1⟩, ⟨1, 0⟩] Algorithm.DIJKSTRA = none ∧
    findPath ⟨5, 5⟩ ⟨0, 0⟩ [⟨0, 1⟩, ⟨1, 0⟩] Algorithm.GREEDY = none ∧
    findPath ⟨5, 5⟩ ⟨0, 0⟩ [⟨0, 1⟩, ⟨1, 0⟩] Algorithm.ASTAR = none :=
  ⟨C6_theorem [⟨0, 1⟩, ⟨1, 0⟩] ⟨5, 5⟩ ⟨0, 0⟩ Algorithm.DIJKSTRA (by decide) (by decide)
      (by decide),
   C6_theorem [⟨0, 1⟩, ⟨1, 0⟩] ⟨5, 5⟩ ⟨0, 0⟩ Algorithm.GREEDY (by decide) (by decide)
      (by decide),
   C6_theorem [⟨0, 1⟩, ⟨1, 0⟩] ⟨5, 5⟩ ⟨0, 0⟩ Algorithm.ASTAR (by decide) (by decide)
      (by decide)⟩

/-- C10: `findPath(p, p, walls, strategy)` succeeds immediately with the
single-cell path `[p]` under every strategy and every wall set (including
`p` itself being a wall), and in general every successful result's path
begins with the start cell and ends with the end cell. -/
theorem C10_theorem :
    (∀ (p : Pos) (walls : List Pos) (algo : Algorithm),
        findPath p p walls algo = some (PathResult.mk [p] 1 [p])) ∧
    (∀ (s e : Pos) (walls : List Pos) (algo : Algorithm) (res : PathResult),
        findPath s e walls algo = some res →
          res.path.head? = some s ∧ res.path.getLast? = some e) := by
  constructor
  · intro p walls algo
    rw [findPath, show (1000 : Nat) = 999 + 1 from rfl, findPathLoop_succ]
    have hsort : sortByKey (nodeKey algo p) [PathNode.mk p 0 []] =
        [PathNode.mk p 0 []] := rfl
    rw [hsort]
    dsimp only
    rw [if_pos rfl]
    rfl
  · intro s e walls algo res h
    have hs := findPath_spec s e walls algo
    rw [h] at hs
    obtain ⟨⟨cells, hpath, -, hlast⟩, -⟩ := hs
    rw [hpath]
    exact ⟨rfl, by rw [getLast?_cons_eq_lastFrom, hlast]⟩

/-- C10 witness: the start-equals-end case on a wall cell, and the
endpoints of a concrete successful search. -/
theorem C10_witness :
    findPath ⟨3, 3⟩ ⟨3, 3⟩ [⟨3, 3⟩] Algorithm.ASTAR =
      some (PathResult.mk [⟨3, 3⟩] 1 [⟨3, 3⟩]) ∧
    ([Pos.mk 0 0, Pos.mk 0 1, Pos.mk 0 2] : List Pos).head? = some ⟨0, 0⟩ ∧
    ([Pos.mk 0 0, Pos.mk 0 1, Pos.mk 0 2] : List Pos).getLast? = some ⟨0, 2⟩ :=
  ⟨C10_theorem.1 ⟨3, 3⟩ [⟨3, 3⟩] Algorithm.ASTAR,
   C10_theorem.2 ⟨0, 0⟩ ⟨0, 2⟩ [⟨1, 0⟩] Algorithm.DIJKSTRA
     (PathResult.mk [⟨0, 0⟩, ⟨0, 1⟩, ⟨0, 2⟩]
       4 [⟨0, 0⟩, ⟨0, 1⟩, ⟨1, 1⟩, ⟨0, 2⟩, ⟨2, 1⟩, ⟨1, 2⟩]) (by decide)⟩

/-! ## The Assignment Solver (`utils/algorithms.ts`, `solveAssignment`)

The recursive backtracking min-cost matcher.  The embedding passes the
mutable JS state (`usedOrders`, `currentAssignment`, and the pair
`minTotalCost`/`bestAssignment`) functionally: `best = none` models
`minTotalCost = Infinity` with the initial empty `bestAssignment`, and the
per-rider loop `for (let j = 0; j < m; j++)` is a fold over `List.range m`.
`rem` counts the riders still to place, so `rem = 0` is the `riderIdx === n`
leaf; the pruning guard makes the leaf's `currentCost < minTotalCost` test
always true, so the leaf simply installs the new best.  `-1` entries of
`currentAssignment` are `none`. -/

/-- An entry of the result of `solveAssignment`
(`algorithms.ts`, `AssignmentResult`). -/
structure AssignmentResult where
  riderIndex : Nat
  orderIndex : Nat
  cost : Nat
deriving DecidableEq, Repr

/-- `costMatrix[i][j]` of `solveAssignment` (Manhattan distance between
rider `i` and target `j`; all accesses in the source are in bounds, so the
`getD` default is never read). -/
def costAt (riderPositions orderPositions : List Pos) (i j : Nat) : Nat :=
  getManhattanDistance (riderPositions.getD i (Pos.mk 0 0))
    (orderPositions.getD j (Pos.mk 0 0))

/-- The pruning guard `currentCost >= minTotalCost` (false while
`minTotalCost` is still `Infinity`). -/
def pruned (best : Option (Nat × List (Option Nat))) (currentCost : Nat) : Bool :=
  match best with
  | some (mc, _) => mc ≤ currentCost
  | none => false

/-- The `backtrack` recursion of `solveAssignment`. -/
def backtrack (cost : Nat → Nat → Nat) (m : Nat) (n : Nat) :
    Nat → Nat → List Nat → Nat → List (Option Nat) →
      Option (Nat × List (Option Nat)) → Option (Nat × List (Option Nat))
  | rem, riderIdx, used, currentCost, assign, best =>
    if pruned best currentCost then best
    else
      match rem with
      | 0 => some (currentCost, assign)
      | rem' + 1 =>
        let best₁ := (List.range m).foldl
          (fun b j =>
            if j ∈ used then b
            else
              backtrack cost m n rem' (riderIdx + 1) (j :: used)
                (currentCost + cost riderIdx j) (assign.set riderIdx (some j)) b)
          best
        if ((List.range m).all (fun j => j ∈ used)) ∧ m < n then
          backtrack cost m n rem' (riderIdx + 1) used currentCost
            (assign.set riderIdx none) best₁
        else best₁

/-- `solveAssignment(riderPositions, orderPositions)` (`algorithms.ts`). -/
def solveAssignment (riderPositions orderPositions : List Pos) :
    List AssignmentResult :=
  let n := riderPositions.length
  let m := orderPositions.length
  let cost := costAt riderPositions orderPositions
  match backtrack cost m n n 0 [] 0 (List.replicate n none) none with
  | none => []
  | some (_, ba) =>
    (List.range n).filterMap (fun i =>
      match ba.getD i none with
      | some j => some (AssignmentResult.mk i j (cost i j))
      | none => none)

/-- Total cost of assigning consecutive riders `i, i + 1, …` the target
indices of `ext`. -/
def extCostFrom (cost : Nat → Nat → Nat) : Nat → List Nat → Nat
  | _, [] => 0
  | i, j :: rest => cost i j + extCostFrom cost (i + 1) rest

/-- A valid extension of the current partial matching: distinct target
indices below `m`, none already used. -/
def ValidExt (m : Nat) (used ext : List Nat) : Prop :=
  (∀ j ∈ ext, j < m ∧ j ∉ used) ∧ ext.Nodup

/-- Overwrite `assign[i], assign[i+1], …` with the choices of `ext`. -/
def writeExt : List (Option Nat) → Nat → List Nat → List (Option Nat)
  | assign, _, [] => assign
  | assign, i, j :: rest => writeExt (assign.set i (some j)) (i + 1) rest

/-- The backtracking search never loses the incumbent: the returned best
cost is at most the incoming best cost. -/
theorem backtrack_mono (cost : Nat → Nat → Nat) (m n : Nat) :
    ∀ (rem riderIdx : Nat) (used : List Nat) (cc : Nat) (assign : List (Option Nat))
      (best : Option (Nat × List (Option Nat))) (mc : Nat) (ba : List (Option Nat)),
      best = some (mc, ba) →
      ∃ v ba', backtrack cost m n rem riderIdx used cc assign best = some (v, ba') ∧ v ≤ mc := by
  intro rem
  induction rem with
  | zero =>
    intro riderIdx used cc assign best mc ba hbest
    subst hbest
    rw [backtrack]
    by_cases hp : pruned (some (mc, ba)) cc = true
    · rw [if_pos hp]
      exact ⟨mc, ba, rfl, le_refl _⟩
    · rw [if_neg hp]
      refine ⟨cc, assign, rfl, ?_⟩
      rw [pruned] at hp
      simpa using Nat.le_of_not_le (by simpa using hp)
  | succ rem' ih =>
    intro riderIdx used cc assign best mc ba hbest
    subst hbest
    rw [backtrack]
    by_cases hp : pruned (some (mc, ba)) cc = true
    · rw [if_pos hp]
      exact ⟨mc, ba, rfl, le_refl _⟩
    · rw [if_neg hp]
      have hfold : ∀ (js : List Nat) (b : Option (Nat × List (Option Nat)))
          (v0 : Nat) (w0 : List (Option Nat)), b = some (v0, w0) →
          ∃ v w, js.foldl (fun b j =>
              if j ∈ used then b
              else backtrack cost m n rem' (riderIdx + 1) (j :: used)
                (cc + cost riderIdx j) (assign.set riderIdx (some j)) b) b = some (v, w) ∧
            v ≤ v0 := by
        intro js
        induction js with
        | nil => intro b v0 w0 hb; exact ⟨v0, w0, by rw [List.foldl_nil, hb], le_refl _⟩
        | cons j js' ihjs =>
          intro b v0 w0 hb
          rw [List.foldl_cons]
          by_cases hj : j ∈ used
          · rw [if_pos hj]
            exact ihjs b v0 w0 hb
          · rw [if_neg hj]
            obtain ⟨v1, w1, hstep, hle1⟩ := ih (riderIdx + 1) (j :: used)
              (cc + cost riderIdx j) (assign.set riderIdx (some j)) b v0 w0 hb
            obtain ⟨v, w, hrec, hle⟩ := ihjs _ v1 w1 hstep
            exact ⟨v, w, hrec, Nat.le_trans hle hle1⟩
      obtain ⟨v1, w1, hfold1, hle1⟩ := hfold (List.range m) (some (mc, ba)) mc ba rfl
      split
      · obtain ⟨v, w, hrec, hle⟩ := ih (riderIdx + 1) used cc (assign.set riderIdx none)
          _ v1 w1 hfold1
        exact ⟨v, w, hrec, Nat.le_trans hle hle1⟩
      · exact ⟨v1, w1, hfold1, hle1⟩

/-- The backtracking search result is at least as cheap as any valid
extension of the current state. -/
theorem backtrack_min (cost : Nat → Nat → Nat) (m n : Nat) :
    ∀ (rem riderIdx : Nat) (used : List Nat) (cc : Nat) (assign : List (Option Nat))
      (best : Option (Nat × List (Option Nat))) (ext : List Nat),
      ext.length = rem → ValidExt m used ext →
      ∃ v ba', backtrack cost m n rem riderIdx used cc assign best = some (v, ba') ∧
        v ≤ cc + extCostFrom cost riderIdx ext := by
  intro rem
  induction rem with
  | zero =>
    intro riderIdx used cc assign best ext hlen _
    obtain rfl : ext = [] := List.length_eq_zero.mp hlen
    rw [backtrack]
    by_cases hp : pruned best cc = true
    · rw [if_pos hp]
      match best, hp with
      | some (mc, ba), hp =>
        exact ⟨mc, ba, rfl, Nat.le_trans (by simpa [pruned] using hp) (Nat.le_add_right _ _)⟩
    · rw [if_neg hp]
      exact ⟨cc, assign, rfl, Nat.le_add_right _ _⟩
  | succ rem' ih =>
    intro riderIdx used cc assign best ext hlen hvalid
    match ext, hlen with
    | j :: ext', hlen =>
      have hlen' : ext'.length = rem' := by simpa using hlen
      have hj := hvalid.1 j (List.mem_cons_self _ _)
      have hvalid' : ValidExt m (j :: used) ext' := by
        constructor
        · intro x hx
          have hxm := hvalid.1 x (List.mem_cons_of_mem _ hx)
          refine ⟨hxm.1, ?_⟩
          intro hxmem
          rcases List.mem_cons.mp hxmem with rfl | hxu
          · exact (List.nodup_cons.mp hvalid.2).1 hx
          · exact hxm.2 hxu
        · exact (List.nodup_cons.mp hvalid.2).2
      rw [backtrack]
      by_cases hp : pruned best cc = true
      · rw [if_pos hp]
        match best, hp with
        | some (mc, ba), hp =>
          exact ⟨mc, ba, rfl, Nat.le_trans (by simpa [pruned] using hp) (Nat.le_add_right _ _)⟩
      · rw [if_neg hp]
        have hfoldmin : ∀ (js : List Nat) (b : Option (Nat × List (Option Nat))),
            j ∈ js →
            ∃ v w, js.foldl (fun b x =>
                if x ∈ used then b
                else backtrack cost m n rem' (riderIdx + 1) (x :: used)
                  (cc + cost riderIdx x) (assign.set riderIdx (some x)) b) b = some (v, w) ∧
              v ≤ cc + cost riderIdx j + extCostFrom cost (riderIdx + 1) ext' := by
          intro js
          induction js with
          | nil => intro b h; simp at h
          | cons x js' ihjs =>
            intro b hmem
            rw [List.foldl_cons]
            by_cases hxj : x = j
            · subst hxj
              rw [if_neg (by simpa using hj.2)]
              obtain ⟨v1, w1, hstep, hle1⟩ := ih (riderIdx + 1) (x :: used)
                (cc + cost riderIdx x) (assign.set riderIdx (some x)) b ext' hlen' hvalid'
              have hmono : ∀ (js'' : List Nat) (b' : Option (Nat × List (Option Nat)))
                  (v0 : Nat) (w0 : List (Option Nat)), b' = some (v0, w0) →
                  ∃ v w, js''.foldl (fun b x =>
                      if x ∈ used then b
                      else backtrack cost m n rem' (riderIdx + 1) (x :: used)
                        (cc + cost riderIdx x) (assign.set riderIdx (some x)) b) b' =
                      some (v, w) ∧ v ≤ v0 := by
                intro js''
                induction js'' with
                | nil => intro b' v0 w0 hb; exact ⟨v0, w0, by rw [List.foldl_nil, hb], le_refl _⟩
                | cons y ys ihys =>
                  intro b' v0 w0 hb
                  rw [List.foldl_cons]
                  by_cases hy : y ∈ used
                  · rw [if_pos hy]
                    exact ihys b' v0 w0 hb
                  · rw [if_neg hy]
                    obtain ⟨v1', w1', hstep', hle1'⟩ := backtrack_mono cost m n rem'
                      (riderIdx + 1) (y :: used) (cc + cost riderIdx y)
                      (assign.set riderIdx (some y)) b' v0 w0 hb
                    obtain ⟨v, w, hrec, hle⟩ := ihys _ v1' w1' hstep'
                    exact ⟨v, w, hrec, Nat.le_trans hle hle1'⟩
              obtain ⟨v, w, hrec, hle⟩ := hmono js' _ v1 w1 hstep
              exact ⟨v, w, hrec, Nat.le_trans hle hle1⟩
            · have hmem' : j ∈ js' := by
                rcases List.mem_cons.mp hmem with h | h
                · exact absurd h.symm hxj
                · exact h
              by_cases hx : x ∈ used
              · rw [if_pos hx]
                exact ihjs _ hmem'
              · rw [if_neg hx]
                exact ihjs _ hmem'
        obtain ⟨v1, w1, hfold1, hle1⟩ := hfoldmin (List.range m) best
          (List.mem_range.mpr hj.1)
        have hcost : cc + cost riderIdx j + extCostFrom cost (riderIdx + 1) ext' =
            cc + extCostFrom cost riderIdx (j :: ext') := by
          rw [extCostFrom]
          omega
        rw [hcost] at hle1
        split
        · obtain ⟨v, w, hrec, hle⟩ := backtrack_mono cost m n rem' (riderIdx + 1) used cc
            (assign.set riderIdx none) _ v1 w1 hfold1
          exact ⟨v, w, hrec, Nat.le_trans hle hle1⟩
        · exact ⟨v1, w1, hfold1, hle1⟩

theorem validExt_cons {m : Nat} {used ext' : List Nat} {j : Nat}
    (h : ValidExt m (j :: used) ext') (hjm : j < m) (hju : j ∉ used) :
    ValidExt m used (j :: ext') := by
  constructor
  · intro x hx
    rcases List.mem_cons.mp hx with rfl | hx'
    · exact ⟨hjm, hju⟩
    · have h2 := h.1 x hx'
      exact ⟨h2.1, fun hxu => h2.2 (List.mem_cons_of_mem _ hxu)⟩
  · rw [List.nodup_cons]
    exact ⟨fun hj => (h.1 j hj).2 (List.mem_cons_self _ _), h.2⟩

/-- Every output of the backtracking search is either the incumbent or a
genuinely realizable complete extension of the current partial matching
(when fewer orders are used than exist, so the rider-skipping branch is
dead). -/
theorem backtrack_reach (cost : Nat → Nat → Nat) (m n : Nat) :
    ∀ (rem riderIdx : Nat) (used : List Nat) (cc : Nat) (assign : List (Option Nat))
      (best : Option (Nat × List (Option Nat))),
      used.Nodup → (∀ j ∈ used, j < m) → used.length + rem ≤ m →
      backtrack cost m n rem riderIdx used cc assign best = best ∨
      ∃ ext, ext.length = rem ∧ ValidExt m used ext ∧
        backtrack cost m n rem riderIdx used cc assign best =
          some (cc + extCostFrom cost riderIdx ext, writeExt assign riderIdx ext) := by
  intro rem
  induction rem with
  | zero =>
    intro riderIdx used cc assign best _ _ _
    rw [backtrack]
    by_cases hp : pruned best cc = true
    · rw [if_pos hp]
      exact Or.inl rfl
    · rw [if_neg hp]
      exact Or.inr ⟨[], rfl, ⟨by simp, List.nodup_nil⟩, rfl⟩
  | succ rem' ih =>
    intro riderIdx used cc assign best hnd hum hcount
    rw [backtrack]
    by_cases hp : pruned best cc = true
    · rw [if_pos hp]
      exact Or.inl rfl
    · rw [if_neg hp]
      by_cases hcond : (((List.range m).all (fun j => j ∈ used)) ∧ m < n)
      · exfalso
        have hsub : List.range m ⊆ used := by
          intro x hx
          have := List.all_eq_true.mp hcond.1 x hx
          simpa using this
        have hlen := ((List.nodup_range m).subperm hsub).length_le
        rw [List.length_range] at hlen
        omega
      · rw [if_neg hcond]
        have hfoldreach : ∀ (js : List Nat) (b : Option (Nat × List (Option Nat))),
            (∀ x ∈ js, x < m) →
            js.foldl (fun b x =>
                if x ∈ used then b
                else backtrack cost m n rem' (riderIdx + 1) (x :: used)
                  (cc + cost riderIdx x) (assign.set riderIdx (some x)) b) b = b ∨
            ∃ ext, ext.length = rem' + 1 ∧ ValidExt m used ext ∧
              js.foldl (fun b x =>
                  if x ∈ used then b
                  else backtrack cost m n rem' (riderIdx + 1) (x :: used)
                    (cc + cost riderIdx x) (assign.set riderIdx (some x)) b) b =
                some (cc + extCostFrom cost riderIdx ext, writeExt assign riderIdx ext) := by
          intro js
          induction js with
          | nil => intro b _; exact Or.inl rfl
          | cons x js' ihjs =>
            intro b hjs
            rw [List.foldl_cons]
            by_cases hx : x ∈ used
            · rw [if_pos hx]
              exact ihjs b (fun y hy => hjs y (List.mem_cons_of_mem _ hy))
            · rw [if_neg hx]
              have hxm : x < m := hjs x (List.mem_cons_self _ _)
              have hstep := ih (riderIdx + 1) (x :: used) (cc + cost riderIdx x)
                (assign.set riderIdx (some x)) b
                (List.nodup_cons.mpr ⟨hx, hnd⟩)
                (fun y hy => by
                  rcases List.mem_cons.mp hy with rfl | hy'
                  · exact hxm
                  · exact hum y hy')
                (by simp only [List.length_cons]; omega)
              rcases ihjs (backtrack cost m n rem' (riderIdx + 1) (x :: used)
                  (cc + cost riderIdx x) (assign.set riderIdx (some x)) b)
                  (fun y hy => hjs y (List.mem_cons_of_mem _ hy)) with hsame | hfound
              · rw [hsame]
                rcases hstep with hb | ⟨ext', hlen', hvalid', heq'⟩
                · exact Or.inl hb
                · refine Or.inr ⟨x :: ext', by simp [hlen'], validExt_cons hvalid' hxm hx, ?_⟩
                  rw [heq']
                  have harith : cc + cost riderIdx x + extCostFrom cost (riderIdx + 1) ext' =
                      cc + extCostFrom cost riderIdx (x :: ext') := by
                    rw [extCostFrom]
                    omega
                  rw [harith]
                  rfl
              · obtain ⟨ext, hlen, hvalid, heq⟩ := hfound
                exact Or.inr ⟨ext, hlen, hvalid, heq⟩
        exact hfoldreach (List.range m) best (fun x hx => List.mem_range.mp hx)

theorem writeExt_length : ∀ (ext : List Nat) (assign : List (Option Nat)) (i : Nat),
    (writeExt assign i ext).length = assign.length
  | [], _, _ => rfl
  | _ :: rest, assign, i => by
    rw [writeExt, writeExt_length rest, List.length_set]

theorem writeExt_getD_lt : ∀ (ext : List Nat) (assign : List (Option Nat)) (i k : Nat),
    k < i → (writeExt assign i ext).getD k none = assign.getD k none
  | [], _, _, _, _ => rfl
  | _ :: rest, assign, i, k, hk => by
    rw [writeExt, writeExt_getD_lt rest _ _ _ (Nat.lt_succ_of_lt hk),
      List.getD_eq_getElem?_getD, List.getD_eq_getElem?_getD,
      List.getElem?_set_ne (Nat.ne_of_gt hk)]

theorem writeExt_getD_in : ∀ (ext : List Nat) (assign : List (Option Nat)) (i t : Nat),
    t < ext.length → i + ext.length ≤ assign.length →
    (writeExt assign i ext).getD (i + t) none = some (ext.getD t 0)
  | [], _, _, t, ht, _ => absurd ht (by simp)
  | j :: rest, assign, i, 0, _, hlen => by
    have h1 := writeExt_getD_lt rest (assign.set i (some j)) (i + 1) i (Nat.lt_succ_self i)
    rw [writeExt, show i + 0 = i from rfl, h1, List.getD_eq_getElem?_getD,
      List.getElem?_set_self (by simp only [List.length_cons] at hlen; omega)]
    rfl
  | j :: rest, assign, i, t + 1, ht, hlen => by
    rw [writeExt, show i + (t + 1) = (i + 1) + t by omega,
      writeExt_getD_in rest _ _ _ (by simpa using ht)
        (by rw [List.length_set]; simp only [List.length_cons] at hlen; omega)]
    rfl

/-- C2 (amended): whenever the riders do not outnumber the targets, the
matching returned by `solveAssignment` assigns every rider a distinct
target and its total Manhattan cost is minimal among all complete
one-to-one matchings.  (When riders outnumber targets optimality fails —
see `C2_counterexample` — because only the first `m` riders can ever
receive an assignment.) -/
theorem C2_theorem (riderPositions orderPositions : List Pos)
    (hnm : riderPositions.length ≤ orderPositions.length) :
    ∃ f : List Nat,
      f.length = riderPositions.length ∧
      (∀ j ∈ f, j < orderPositions.length) ∧
      f.Nodup ∧
      solveAssignment riderPositions orderPositions =
        (List.range riderPositions.length).map (fun i =>
          AssignmentResult.mk i (f.getD i 0)
            (costAt riderPositions orderPositions i (f.getD i 0))) ∧
      (∀ g : List Nat, g.length = riderPositions.length →
        (∀ j ∈ g, j < orderPositions.length) → g.Nodup →
        extCostFrom (costAt riderPositions orderPositions) 0 f ≤
          extCostFrom (costAt riderPositions orderPositions) 0 g) := by
  have hreach := backtrack_reach (costAt riderPositions orderPositions)
    orderPositions.length riderPositions.length riderPositions.length 0 [] 0
    (List.replicate riderPositions.length none) none List.nodup_nil (by simp)
    (by simpa using hnm)
  obtain ⟨v0, ba0, heq0, -⟩ := backtrack_min (costAt riderPositions orderPositions)
    orderPositions.length riderPositions.length riderPositions.length 0 [] 0
    (List.replicate riderPositions.length none) none (List.range riderPositions.length)
    (List.length_range _)
    ⟨fun j hj => ⟨Nat.lt_of_lt_of_le (List.mem_range.mp hj) hnm, by simp⟩,
      List.nodup_range _⟩
  rcases hreach with hnone | ⟨ext, hlen, hvalid, heq2⟩
  · rw [heq0] at hnone
    exact absurd hnone (by simp)
  · refine ⟨ext, hlen, fun j hj => (hvalid.1 j hj).1, hvalid.2, ?_, ?_⟩
    · rw [solveAssignment]
      simp only [heq2]
      apply List.filterMap_congr ?_ |>.trans
        (congrFun (List.filterMap_eq_map (fun i => AssignmentResult.mk i
          (ext.getD i 0)
          (costAt riderPositions orderPositions i (ext.getD i 0)))) _)
      intro i hi
      have hkey := writeExt_getD_in ext (List.replicate riderPositions.length none) 0 i
        (by rw [hlen]; exact List.mem_range.mp hi) (by simp [hlen])
      simp only [Nat.zero_add] at hkey
      rw [hkey]
      rfl
    · intro g hglen hgm hgnd
      obtain ⟨v', ba', heq', hle'⟩ := backtrack_min (costAt riderPositions orderPositions)
        orderPositions.length riderPositions.length riderPositions.length 0 [] 0
        (List.replicate riderPositions.length none) none g (by rw [hglen])
        ⟨fun j hj => ⟨hgm j hj, by simp⟩, hgnd⟩
      rw [heq2] at heq'
      have hpair := Option.some.inj heq'
      have hv : v' = 0 + extCostFrom (costAt riderPositions orderPositions) 0 ext :=
        (congrArg Prod.fst hpair).symm
      rw [hv] at hle'
      simpa using hle'

/-- C2 counterexample: with riders `(0,0)` and `(0,5)` and the single
target `(0,5)`, the solver assigns rider 0 at cost 5, but the one-to-one
matching that assigns rider 1 (standing on the target) has total cost 0. -/
theorem C2_counterexample :
    solveAssignment [⟨0, 0⟩, ⟨0, 5⟩] [⟨0, 5⟩] = [AssignmentResult.mk 0 0 5] ∧
    getManhattanDistance ⟨0, 5⟩ ⟨0, 5⟩ = 0 ∧ (0 : Nat) < 5 :=
  ⟨by decide, by decide, by decide⟩

/-- C2 witness: two riders, two targets. -/
theorem C2_witness :
    ∃ f : List Nat,
      f.length = ([⟨0, 0⟩, ⟨5, 5⟩] : List Pos).length ∧
      (∀ j ∈ f, j < ([⟨0, 4⟩, ⟨5, 6⟩] : List Pos).length) ∧
      f.Nodup ∧
      solveAssignment [⟨0, 0⟩, ⟨5, 5⟩] [⟨0, 4⟩, ⟨5, 6⟩] =
        (List.range ([⟨0, 0⟩, ⟨5, 5⟩] : List Pos).length).map (fun i =>
          AssignmentResult.mk i (f.getD i 0)
            (costAt [⟨0, 0⟩, ⟨5, 5⟩] [⟨0, 4⟩, ⟨5, 6⟩] i (f.getD i 0))) ∧
      (∀ g : List Nat, g.length = ([⟨0, 0⟩, ⟨5, 5⟩] : List Pos).length →
        (∀ j ∈ g, j < ([⟨0, 4⟩, ⟨5, 6⟩] : List Pos).length) → g.Nodup →
        extCostFrom (costAt [⟨0, 0⟩, ⟨5, 5⟩] [⟨0, 4⟩, ⟨5, 6⟩]) 0 f ≤
          extCostFrom (costAt [⟨0, 0⟩, ⟨5, 5⟩] [⟨0, 4⟩, ⟨5, 6⟩]) 0 g) :=
  C2_theorem [⟨0, 0⟩, ⟨5, 5⟩] [⟨0, 4⟩, ⟨5, 6⟩] (by decide)

/-! ## The Route Optimizer (`utils/algorithms.ts`, `solveTSP`)

The multi-stop tour solver.  (The source's local `allPoints` binding is dead
code and is not modelled.)  The `OPTIMAL` branch's mutable
`minDist`/`bestPath` pair is threaded as `best : Option (Nat × List Pos)`
(`none` = `Infinity` with the initial empty `bestPath`); `permute`'s
`for (let i = 0; i < arr.length; i++)` with `splice(i, 1)` is a fold over
`List.range arr.length` using `eraseIdx`; the fuel equals the recursion
depth `arr.length`, so the fuel case is never reached. -/

/-- The method selector of `solveTSP`. -/
inductive TSPMethod where
  | NAIVE
  | GREEDY
  | OPTIMAL
deriving DecidableEq, Repr

/-- The tour-cost loop of `permute`'s leaf
(`for (const p of m) { d += dist(curr, p); curr = p; }`). -/
def tourDist (curr : Pos) : List Pos → Nat
  | [] => 0
  | p :: rest => getManhattanDistance curr p + tourDist p rest

/-- The nearest-neighbour loop of `solveTSP`'s `GREEDY` branch. -/
def tspGreedyLoop : Nat → Pos → List Pos → List Pos → List Pos
  | 0, _, _, result => result
  | k + 1, current, unvisited, result =>
    match sortByKey (getManhattanDistance current) unvisited with
    | [] => result
    | next :: rest => tspGreedyLoop k next rest (result ++ [next])

/-- The `permute` recursion of `solveTSP`'s `OPTIMAL` branch. -/
def permuteAux (start : Pos) : Nat → List Pos → List Pos → Option (Nat × List Pos) →
    Option (Nat × List Pos)
  | fuel, arr, macc, best =>
    match arr with
    | [] =>
      match best with
      | some (md, bp) =>
        if tourDist start macc < md then some (tourDist start macc, macc)
        else some (md, bp)
      | none => some (tourDist start macc, macc)
    | _ :: _ =>
      match fuel with
      | 0 => best
      | fuel' + 1 =>
        (List.range arr.length).foldl
          (fun b i =>
            permuteAux start fuel' (arr.eraseIdx i) (macc ++ [arr.getD i (Pos.mk 0 0)]) b)
          best

/-- `solveTSP(start, points, method)` (`algorithms.ts`). -/
def solveTSP (start : Pos) (points : List Pos) (method : TSPMethod) : List Pos :=
  match method with
  | TSPMethod.NAIVE => points
  | TSPMethod.GREEDY => tspGreedyLoop points.length start points []
  | TSPMethod.OPTIMAL =>
    match permuteAux start points.length points [] none with
    | some (_, bp) => bp
    | none => []

theorem perm_getD_cons_eraseIdx (l : List Pos) (i : Nat) (h : i < l.length) :
    List.Perm l (l.getD i (Pos.mk 0 0) :: l.eraseIdx i) := by
  have h1 : l.getD i (Pos.mk 0 0) = l.get ⟨i, h⟩ := by
    rw [List.getD_eq_getElem?_getD, List.getElem?_eq_getElem h]
    rfl
  rw [h1, List.eraseIdx_eq_take_drop_succ]
  have h2 : l = l.take i ++ (l.get ⟨i, h⟩ :: l.drop (i + 1)) := by
    rw [show l.get ⟨i, h⟩ :: l.drop (i + 1) = l.drop i from List.getElem_cons_drop l i h]
    exact (List.take_append_drop i l).symm
  have h3 : (l.take i ++ (l.get ⟨i, h⟩ :: l.drop (i + 1))).Perm
      (l.get ⟨i, h⟩ :: (l.take i ++ l.drop (i + 1))) := List.perm_middle
  rw [← h2] at h3
  exact h3

theorem permuteAux_nil_none (start : Pos) (fuel : Nat) (macc : List Pos) :
    permuteAux start fuel [] macc none = some (tourDist start macc, macc) := by
  cases fuel <;> rfl

theorem permuteAux_nil_some (start : Pos) (fuel : Nat) (macc : List Pos)
    (md : Nat) (bp : List Pos) :
    permuteAux start fuel [] macc (some (md, bp)) =
      if tourDist start macc < md then some (tourDist start macc, macc)
      else some (md, bp) := by
  cases fuel <;> rfl

theorem permuteAux_zero_cons (start x : Pos) (arr' macc : List Pos)
    (best : Option (Nat × List Pos)) :
    permuteAux start 0 (x :: arr') macc best = best := rfl

theorem permuteAux_cons (start x : Pos) (fuel' : Nat) (arr' macc : List Pos)
    (best : Option (Nat × List Pos)) :
    permuteAux start (fuel' + 1) (x :: arr') macc best =
      (List.range (x :: arr').length).foldl
        (fun b i =>
          permuteAux start fuel' ((x :: arr').eraseIdx i)
            (macc ++ [(x :: arr').getD i (Pos.mk 0 0)]) b)
        best := rfl

/-- The permutation search never loses the incumbent. -/
theorem permuteAux_mono (start : Pos) :
    ∀ (fuel : Nat) (arr macc : List Pos) (best : Option (Nat × List Pos))
      (md : Nat) (bp : List Pos), best = some (md, bp) →
      ∃ v w, permuteAux start fuel arr macc best = some (v, w) ∧ v ≤ md := by
  intro fuel
  induction fuel with
  | zero =>
    intro arr macc best md bp hbest
    subst hbest
    cases arr with
    | nil =>
      rw [permuteAux_nil_some]
      by_cases hlt : tourDist start macc < md
      · rw [if_pos hlt]
        exact ⟨_, _, rfl, Nat.le_of_lt hlt⟩
      · rw [if_neg hlt]
        exact ⟨md, bp, rfl, le_refl _⟩
    | cons x arr' => exact ⟨md, bp, permuteAux_zero_cons start x arr' macc _, le_refl _⟩
  | succ fuel' ih =>
    intro arr macc best md bp hbest
    subst hbest
    cases arr with
    | nil =>
      rw [permuteAux_nil_some]
      by_cases hlt : tourDist start macc < md
      · rw [if_pos hlt]
        exact ⟨_, _, rfl, Nat.le_of_lt hlt⟩
      · rw [if_neg hlt]
        exact ⟨md, bp, rfl, le_refl _⟩
    | cons x arr' =>
      rw [permuteAux_cons]
      have hfold : ∀ (js : List Nat) (b : Option (Nat × List Pos)) (v0 : Nat)
          (w0 : List Pos), b = some (v0, w0) →
          ∃ v w, js.foldl (fun b i =>
              permuteAux start fuel' ((x :: arr').eraseIdx i)
                (macc ++ [(x :: arr').getD i (Pos.mk 0 0)]) b) b = some (v, w) ∧
            v ≤ v0 := by
        intro js
        induction js with
        | nil => intro b v0 w0 hb; exact ⟨v0, w0, by rw [List.foldl_nil, hb], le_refl _⟩
        | cons i js' ihjs =>
          intro b v0 w0 hb
          rw [List.foldl_cons]
          obtain ⟨v1, w1, hstep, hle1⟩ := ih ((x :: arr').eraseIdx i)
            (macc ++ [(x :: arr').getD i (Pos.mk 0 0)]) b v0 w0 hb
          obtain ⟨v, w, hrec, hle⟩ := ihjs _ v1 w1 hstep
          exact ⟨v, w, hrec, Nat.le_trans hle hle1⟩
      exact hfold (List.range (x :: arr').length) _ md bp rfl

/-- The permutation search result is at least as cheap as any permutation
of the remaining points. -/
theorem permuteAux_min (start : Pos) :
    ∀ (fuel : Nat) (arr macc : List Pos) (best : Option (Nat × List Pos))
      (ext : List Pos), arr.length ≤ fuel → List.Perm ext arr →
      ∃ v w, permuteAux start fuel arr macc best = some (v, w) ∧
        v ≤ tourDist start (macc ++ ext) := by
  intro fuel
  induction fuel with
  | zero =>
    intro arr macc best ext hfuel hperm
    obtain rfl : arr = [] := List.length_eq_zero.mp (Nat.le_zero.mp hfuel)
    obtain rfl : ext = [] := hperm.eq_nil
    rw [List.append_nil]
    rcases best with _ | ⟨md, bp⟩
    · exact ⟨_, _, permuteAux_nil_none start 0 macc, le_refl _⟩
    · rw [permuteAux_nil_some]
      by_cases hlt : tourDist start macc < md
      · rw [if_pos hlt]
        exact ⟨_, _, rfl, le_refl _⟩
      · rw [if_neg hlt]
        exact ⟨md, bp, rfl, Nat.le_of_not_lt hlt⟩
  | succ fuel' ih =>
    intro arr macc best ext hfuel hperm
    cases arr with
    | nil =>
      obtain rfl : ext = [] := hperm.eq_nil
      rw [List.append_nil]
      rcases best with _ | ⟨md, bp⟩
      · exact ⟨_, _, permuteAux_nil_none start _ macc, le_refl _⟩
      · rw [permuteAux_nil_some]
        by_cases hlt : tourDist start macc < md
        · rw [if_pos hlt]
          exact ⟨_, _, rfl, le_refl _⟩
        · rw [if_neg hlt]
          exact ⟨md, bp, rfl, Nat.le_of_not_lt hlt⟩
    | cons x arr' =>
      cases ext with
      | nil =>
        have := hperm.length_eq
        simp at this
      | cons e ext₂ =>
        have he : e ∈ x :: arr' := hperm.mem_iff.mp (List.mem_cons_self _ _)
        have hi : (x :: arr').indexOf e < (x :: arr').length :=
          List.indexOf_lt_length.mpr he
        have hgd : (x :: arr').getD ((x :: arr').indexOf e) (Pos.mk 0 0) = e := by
          rw [List.getD_eq_getElem?_getD, List.getElem?_eq_getElem hi]
          simp [List.getElem_indexOf]
        have herase : (x :: arr').eraseIdx ((x :: arr').indexOf e) =
            (x :: arr').erase e := List.eraseIdx_indexOf_eq_erase e (x :: arr')
        have hext₂ : List.Perm ext₂ ((x :: arr').erase e) :=
          List.Perm.cons_inv (hperm.trans (List.perm_cons_erase he))
        have hcost : tourDist start ((macc ++ [e]) ++ ext₂) =
            tourDist start (macc ++ e :: ext₂) := by
          rw [List.append_assoc, List.singleton_append]
        have hfold : ∀ (js : List Nat) (b : Option (Nat × List Pos)),
            (x :: arr').indexOf e ∈ js →
            ∃ v w, js.foldl (fun b i =>
                permuteAux start fuel' ((x :: arr').eraseIdx i)
                  (macc ++ [(x :: arr').getD i (Pos.mk 0 0)]) b) b = some (v, w) ∧
              v ≤ tourDist start (macc ++ e :: ext₂) := by
          intro js
          induction js with
          | nil => intro b h; simp at h
          | cons i js' ihjs =>
            intro b hmem
            rw [List.foldl_cons]
            by_cases hieq : i = (x :: arr').indexOf e
            · have hi' : i < (x :: arr').length := by rw [hieq]; exact hi
              have hgd' : (x :: arr').getD i (Pos.mk 0 0) = e := by rw [hieq]; exact hgd
              have herase' : (x :: arr').eraseIdx i = (x :: arr').erase e := by
                rw [hieq]; exact herase
              rw [hgd']
              obtain ⟨v1, w1, hstep, hle1⟩ := ih ((x :: arr').eraseIdx i)
                (macc ++ [(x :: arr').getD i (Pos.mk 0 0)]) b ext₂
                (by have h5 := List.length_eraseIdx_add_one hi'; omega)
                (by rw [herase']; exact hext₂)
              rw [hgd'] at hstep hle1
              rw [hcost] at hle1
              have hmono : ∀ (js'' : List Nat) (b' : Option (Nat × List Pos))
                  (v0 : Nat) (w0 : List Pos), b' = some (v0, w0) →
                  ∃ v w, js''.foldl (fun b i =>
                      permuteAux start fuel' ((x :: arr').eraseIdx i)
                        (macc ++ [(x :: arr').getD i (Pos.mk 0 0)]) b) b' = some (v, w) ∧
                    v ≤ v0 := by
                intro js''
                induction js'' with
                | nil => intro b' v0 w0 hb; exact ⟨v0, w0, by rw [List.foldl_nil, hb], le_refl _⟩
                | cons y ys ihys =>
                  intro b' v0 w0 hb
                  rw [List.foldl_cons]
                  obtain ⟨v1', w1', hstep', hle1'⟩ := permuteAux_mono start fuel'
                    ((x :: arr').eraseIdx y)
                    (macc ++ [(x :: arr').getD y (Pos.mk 0 0)]) b' v0 w0 hb
                  obtain ⟨v, w, hrec, hle⟩ := ihys _ v1' w1' hstep'
                  exact ⟨v, w, hrec, Nat.le_trans hle hle1'⟩
              obtain ⟨v, w, hrec, hle⟩ := hmono js' _ v1 w1 hstep
              exact ⟨v, w, hrec, Nat.le_trans hle hle1⟩
            · have hmem' : (x :: arr').indexOf e ∈ js' := by
                rcases List.mem_cons.mp hmem with h | h
                · exact absurd h.symm hieq
                · exact h
              exact ihjs _ hmem'
        rw [permuteAux_cons]
        exact hfold (List.range (x :: arr').length) best (List.mem_range.mpr hi)

/-- Every output of the permutation search is the incumbent or a real
permutation of the remaining points with its exact tour cost. -/
theorem permuteAux_reach (start : Pos) :
    ∀ (fuel : Nat) (arr macc : List Pos) (best : Option (Nat × List Pos)),
      permuteAux start fuel arr macc best = best ∨
      ∃ ext, List.Perm ext arr ∧ permuteAux start fuel arr macc best =
        some (tourDist start (macc ++ ext), macc ++ ext) := by
  intro fuel
  induction fuel with
  | zero =>
    intro arr macc best
    cases arr with
    | nil =>
      rcases best with _ | ⟨md, bp⟩
      · exact Or.inr ⟨[], List.Perm.refl _,
          by rw [permuteAux_nil_none, List.append_nil]⟩
      · rw [permuteAux_nil_some]
        by_cases hlt : tourDist start macc < md
        · rw [if_pos hlt]
          exact Or.inr ⟨[], List.Perm.refl _, by rw [List.append_nil]⟩
        · rw [if_neg hlt]
          exact Or.inl rfl
    | cons x arr' => exact Or.inl (permuteAux_zero_cons start x arr' macc best)
  | succ fuel' ih =>
    intro arr macc best
    cases arr with
    | nil =>
      rcases best with _ | ⟨md, bp⟩
      · exact Or.inr ⟨[], List.Perm.refl _,
          by rw [permuteAux_nil_none, List.append_nil]⟩
      · rw [permuteAux_nil_some]
        by_cases hlt : tourDist start macc < md
        · rw [if_pos hlt]
          exact Or.inr ⟨[], List.Perm.refl _, by rw [List.append_nil]⟩
        · rw [if_neg hlt]
          exact Or.inl rfl
    | cons x arr' =>
      rw [permuteAux_cons]
      have hfold : ∀ (js : List Nat) (b : Option (Nat × List Pos)),
          (∀ i ∈ js, i < (x :: arr').length) →
          js.foldl (fun b i =>
              permuteAux start fuel' ((x :: arr').eraseIdx i)
                (macc ++ [(x :: arr').getD i (Pos.mk 0 0)]) b) b = b ∨
          ∃ ext, List.Perm ext (x :: arr') ∧
            js.foldl (fun b i =>
                permuteAux start fuel' ((x :: arr').eraseIdx i)
                  (macc ++ [(x :: arr').getD i (Pos.mk 0 0)]) b) b =
              some (tourDist start (macc ++ ext), macc ++ ext) := by
        intro js
        induction js with
        | nil => intro b _; exact Or.inl rfl
        | cons i js' ihjs =>
          intro b hjs
          rw [List.foldl_cons]
          have hi : i < (x :: arr').length := hjs i (List.mem_cons_self _ _)
          have hstep := ih ((x :: arr').eraseIdx i)
            (macc ++ [(x :: arr').getD i (Pos.mk 0 0)]) b
          rcases ihjs (permuteAux start fuel' ((x :: arr').eraseIdx i)
              (macc ++ [(x :: arr').getD i (Pos.mk 0 0)]) b)
              (fun y hy => hjs y (List.mem_cons_of_mem _ hy)) with hsame | hfound
          · rw [hsame]
            rcases hstep with hb | ⟨ext', hperm', heq'⟩
            · exact Or.inl hb
            · refine Or.inr ⟨(x :: arr').getD i (Pos.mk 0 0) :: ext', ?_, ?_⟩
              · exact ((hperm'.cons _).trans
                  (perm_getD_cons_eraseIdx (x :: arr') i hi).symm)
              · rw [heq', List.append_assoc, List.singleton_append]
          · obtain ⟨ext, hperm, heq⟩ := hfound
            exact Or.inr ⟨ext, hperm, heq⟩
      exact hfold (List.range (x :: arr').length) best (fun i hi => List.mem_range.mp hi)

/-- C9: the `OPTIMAL` mode of `solveTSP` returns an ordering of the target
cells whose total Manhattan tour cost from `start` is minimal over all
permutations of the targets. -/
theorem C9_theorem (start : Pos) (points : List Pos) :
    List.Perm (solveTSP start points TSPMethod.OPTIMAL) points ∧
    ∀ other : List Pos, List.Perm other points →
      tourDist start (solveTSP start points TSPMethod.OPTIMAL) ≤
        tourDist start other := by
  obtain ⟨v, w, heq, hle⟩ := permuteAux_min start points.length points [] none points
    (le_refl _) (List.Perm.refl _)
  rcases permuteAux_reach start points.length points [] none with hnone | ⟨ext, hperm, heq2⟩
  · rw [heq] at hnone
    exact absurd hnone (by simp)
  · have hsolve : solveTSP start points TSPMethod.OPTIMAL = ext := by
      show (match permuteAux start points.length points [] none with
        | some (_, bp) => bp
        | none => []) = ext
      rw [heq2]
      rfl
    constructor
    · rw [hsolve]
      exact hperm
    · intro other hother
      obtain ⟨v', w', heq', hle'⟩ := permuteAux_min start points.length points [] none other
        (le_refl _) hother
      rw [heq2] at heq'
      have hv : v' = tourDist start ([] ++ ext) :=
        (congrArg Prod.fst (Option.some.inj heq')).symm
      rw [hsolve]
      rw [hv] at hle'
      simpa using hle'

/-- C9 witness: a concrete three-stop instance. -/
theorem C9_witness :
    List.Perm (solveTSP ⟨0, 0⟩ [⟨5, 5⟩, ⟨1, 1⟩, ⟨3, 3⟩] TSPMethod.OPTIMAL)
      [⟨5, 5⟩, ⟨1, 1⟩, ⟨3, 3⟩] ∧
    tourDist ⟨0, 0⟩ (solveTSP ⟨0, 0⟩ [⟨5, 5⟩, ⟨1, 1⟩, ⟨3, 3⟩] TSPMethod.OPTIMAL) ≤
      tourDist ⟨0, 0⟩ [⟨5, 5⟩, ⟨1, 1⟩, ⟨3, 3⟩] :=
  ⟨(C9_theorem ⟨0, 0⟩ [⟨5, 5⟩, ⟨1, 1⟩, ⟨3, 3⟩]).1,
   (C9_theorem ⟨0, 0⟩ [⟨5, 5⟩, ⟨1, 1⟩, ⟨3, 3⟩]).2 [⟨5, 5⟩, ⟨1, 1⟩, ⟨3, 3⟩]
     (List.Perm.refl _)⟩

/-! ### World model: `handleSimulationTick` and `createOrder`
(main application file).

JS string ids (UUIDs) are modelled as `Nat`; colour fields, the status
message and the display-only `timestamp` string are omitted; wall-clock
readings (`Date.now()`) enter through an explicit `now` parameter.
Floating-point speeds and movement accumulators are modelled as `ℚ`.
`Math.max(0, t - DELAY_MS)` on the non-negative cooking timer is `Nat`
truncated subtraction. -/

/-- Rider lifecycle states (`types.ts`). -/
inductive RiderStatus where
  | IDLE
  | MOVING_TO_HOTEL
  | WAITING_FOR_FOOD
  | DELIVERING
  | RETURNING
deriving DecidableEq, Repr

/-- Order states (`types.ts`). -/
inductive OrderStatus where
  | COOKING
  | READY
  | DELIVERED
deriving DecidableEq, Repr

/-- An order (`types.ts`), without the display-only `timestamp` string. -/
structure Order where
  id : Nat
  homeId : Nat
  hotelId : Nat
  riderId : Option Nat
  status : OrderStatus
  cookingTimeRemainingMs : Nat
  pickupTime : Option Nat := none
  actualDeliveryTimeMs : Option Nat := none
  blocksCovered : Option Nat := none
deriving DecidableEq, Repr

/-- A rider (`types.ts`), without the colour field. -/
structure Rider where
  id : Nat
  pos : Pos
  speed : ℚ
  status : RiderStatus
  targetEntityId : Option Nat
  assignedOrderIds : List Nat
  deliveryQueue : List Nat
  pathQueue : List Pos
  movementAccumulator : ℚ
  totalEarnings : Nat
  totalOrdersDelivered : Nat
  totalDistanceTraveled : Nat
deriving DecidableEq, Repr

/-- A hotel or home (`types.ts`), reduced to its id and grid cell. -/
structure Entity where
  id : Nat
  pos : Pos
deriving DecidableEq, Repr

/-- The simulation state threaded through `handleSimulationTick`:
the `riders`/`orders` React state, the static hotels, homes, walls and
selected algorithm, and the global path-trace / distance stats. -/
structure World where
  riders : List Rider
  orders : List Order
  hotels : List Entity
  homes : List Entity
  walls : List Pos
  algorithm : Algorithm
  pathTrace : List Pos
  distanceTraveled : Nat
deriving DecidableEq, Repr

/-- Position of a status along COOKING → READY → DELIVERED. -/
def statusRank : OrderStatus → Nat
  | OrderStatus.COOKING => 0
  | OrderStatus.READY => 1
  | OrderStatus.DELIVERED => 2

/-- The cooking-timer update of `handleSimulationTick` step 1: while
COOKING, the timer decreases by `DELAY_MS` clamped at zero, flipping the
status to READY exactly when it reaches zero. -/
def cookOrder (o : Order) : Order :=
  if o.status = OrderStatus.COOKING then
    let newTime := o.cookingTimeRemainingMs - DELAY_MS
    { o with cookingTimeRemainingMs := newTime,
             status := if newTime = 0 then OrderStatus.READY else OrderStatus.COOKING }
  else o

/-- The `while (newAccumulator >= 1 && currentPath.length > 0)` movement
loop: returns the final accumulator, position, remaining queue and number
of steps moved. -/
def moveLoop (pos : Pos) (acc : ℚ) : List Pos → ℚ × Pos × List Pos × Nat
  | [] => (acc, pos, [], 0)
  | p :: rest =>
    if 1 ≤ acc then
      match moveLoop p (acc - 1) rest with
      | (a, q, l, n) => (a, q, l, n + 1)
    else (acc, pos, p :: rest, 0)

/-- The movement rule of `handleSimulationTick` (the
`rider.pathQueue.length > 0` early-return branch), restricted to the
rider's own fields: add `speed` to the accumulator, then pop whole cells
while it allows. -/
def tickMove (r : Rider) : Rider :=
  match r.pathQueue with
  | [] => r
  | _ :: _ =>
    match moveLoop r.pos (r.movementAccumulator + r.speed) r.pathQueue with
    | (a, q, l, _) => { r with pos := q, pathQueue := l, movementAccumulator := a }

/-- Iterate the movement rule over `k` uninterrupted ticks. -/
def tickN (r : Rider) : Nat → Rider
  | 0 => r
  | k + 1 => tickMove (tickN r k)

/-- `arr[arr.findIndex(p)] = f(...)`: update the first element satisfying
`p`, leaving the list unchanged when none does. -/
def updateFirst {α : Type} (p : α → Bool) (f : α → α) : List α → List α
  | [] => []
  | x :: xs => if p x then f x :: xs else x :: updateFirst p f xs

/-- The greedy nearest-neighbour multi-leg route of the WAITING_FOR_FOOD
branch: repeatedly sort the remaining `(orderId, home)` targets by Manhattan
distance from the current position (the stable JS sort), take the closest,
record its order id, and append the `findPath` leg without its start cell;
a failed leg keeps the current position (the `if (legPath)` guard). -/
def riderLegsLoop (walls : List Pos) (algo : Algorithm) :
    Nat → Pos → List (Nat × Entity) → List Pos → List Nat → List Pos × List Nat
  | 0, _, _, accPath, accQueue => (accPath, accQueue)
  | k + 1, curr, targets, accPath, accQueue =>
    match sortByKey (fun t => getManhattanDistance curr t.2.pos) targets with
    | [] => (accPath, accQueue)
    | t :: rest =>
      match findPath curr t.2.pos walls algo with
      | some pr => riderLegsLoop walls algo k t.2.pos rest
          (accPath ++ pr.path.drop 1) (accQueue ++ [t.1])
      | none => riderLegsLoop walls algo k curr rest accPath (accQueue ++ [t.1])

/-- The order update applied when a DELIVERING rider stands on an order's
home: status becomes DELIVERED, the delivery time is recorded when a pickup
time exists, and `blocksCovered` is set when both hotel and home resolve. -/
def deliverUpdate (now : Nat) (hotels homes : List Entity) (o : Order) : Order :=
  let o1 := { o with status := OrderStatus.DELIVERED }
  let o2 :=
    match o1.pickupTime with
    | some pt => { o1 with actualDeliveryTimeMs := some (now - pt) }
    | none => o1
  match hotels.find? (fun h => h.id = o.hotelId),
      homes.find? (fun h => h.id = o.homeId) with
  | some hotel, some home =>
    { o2 with blocksCovered := some (getManhattanDistance hotel.pos home.pos) }
  | _, _ => o2

/-- The tail of the DELIVERING branch (`if (rider.pathQueue.length === 0)`):
when no assigned order is still undelivered, route back to the last order's
hotel (falling back to the first hotel), or go IDLE if no hotel or no
return path exists. -/
def afterDeliver (walls : List Pos) (algo : Algorithm) (hotels : List Entity)
    (rider2 : Rider) (orders2 : List Order) : Rider × List Order × Nat × List Pos :=
  if rider2.pathQueue = [] then
    if orders2.any (fun o =>
        rider2.assignedOrderIds.contains o.id ∧ o.status ≠ OrderStatus.DELIVERED) then
      (rider2, orders2, 0, [])
    else
      let hotelToReturnTo : Option Entity :=
        match rider2.assignedOrderIds.getLast? with
        | some lastId =>
          match orders2.find? (fun o => o.id = lastId) with
          | some lastOrder =>
            match hotels.find? (fun h => h.id = lastOrder.hotelId) with
            | some h => some h
            | none => hotels.head?
          | none => hotels.head?
        | none => hotels.head?
      match hotelToReturnTo with
      | some hotel =>
        match findPath rider2.pos hotel.pos walls algo with
        | some pr =>
          ({ rider2 with
              status := RiderStatus.RETURNING,
              pathQueue := pr.path.drop 1, targetEntityId := some hotel.id },
           orders2, 0, [])
        | none =>
          ({ rider2 with status := RiderStatus.IDLE, assignedOrderIds := [] },
           orders2, 0, [])
      | none =>
        ({ rider2 with status := RiderStatus.IDLE, assignedOrderIds := [] },
         orders2, 0, [])
  else (rider2, orders2, 0, [])

/-- One rider's pass through the `riders.map` body of
`handleSimulationTick`, threading the mutated `nextOrders`; returns the
updated rider, the updated orders, the distance-stat delta and the cells
added to the path trace.  Orders whose home id does not resolve are skipped
in the leg targets (the source would fail on its non-null assertion
there). -/
def tickRider (now : Nat) (hotels homes : List Entity) (walls : List Pos)
    (algo : Algorithm) (orders : List Order) (rider : Rider) :
    Rider × List Order × Nat × List Pos :=
  match rider.pathQueue with
  | q0 :: qrest =>
    match moveLoop rider.pos (rider.movementAccumulator + rider.speed) (q0 :: qrest) with
    | (a, p', l, n) =>
      ({ rider with pos := p', pathQueue := l, movementAccumulator := a },
       orders,
       if rider.status = RiderStatus.DELIVERING ∨
           rider.status = RiderStatus.MOVING_TO_HOTEL then n else 0,
       (q0 :: qrest).take n)
  | [] =>
    if rider.status = RiderStatus.MOVING_TO_HOTEL then
      ({ rider with status := RiderStatus.WAITING_FOR_FOOD }, orders, 0, [])
    else if rider.status = RiderStatus.WAITING_FOR_FOOD then
      let myOrders := orders.filter (fun o => rider.assignedOrderIds.contains o.id)
      if myOrders.all (fun o => o.status = OrderStatus.READY) ∧ myOrders ≠ [] then
        let homeTargets := myOrders.filterMap (fun o =>
          (homes.find? (fun h => h.id = o.homeId)).map (fun h => (o.id, h)))
        match riderLegsLoop walls algo homeTargets.length rider.pos homeTargets [] [] with
        | (calculatedPath, calculatedQueue) =>
          let orders' := myOrders.foldl (fun os o =>
            updateFirst (fun no => no.id = o.id)
              (fun no => { no with pickupTime := some now }) os) orders
          ({ rider with
              status := RiderStatus.DELIVERING, pathQueue := calculatedPath,
              deliveryQueue := calculatedQueue, targetEntityId := none },
           orders', 0, [])
      else (rider, orders, 0, [])
    else if rider.status = RiderStatus.DELIVERING then
      let myActiveOrders := orders.filter (fun o =>
        rider.assignedOrderIds.contains o.id ∧ o.status ≠ OrderStatus.DELIVERED)
      let deliveredOrder := myActiveOrders.find? (fun o =>
        match homes.find? (fun h => h.id = o.homeId) with
        | some h => decide (h.pos = rider.pos)
        | none => false)
      match deliveredOrder with
      | some dOrd =>
        match orders.find? (fun o => o.id = dOrd.id) with
        | some tgt =>
          let tgt' := deliverUpdate now hotels homes tgt
          let orders2 :=
            updateFirst (fun o => o.id = dOrd.id) (deliverUpdate now hotels homes) orders
          let dist :=
            match tgt'.blocksCovered with
            | some d => if d = 0 then 5 else d
            | none => 5
          let pay := 150 + dist * 5
          afterDeliver walls algo hotels
            { rider with
                totalEarnings := rider.totalEarnings + pay,
                totalOrdersDelivered := rider.totalOrdersDelivered + 1,
                totalDistanceTraveled := rider.totalDistanceTraveled + dist }
            orders2
        | none => afterDeliver walls algo hotels rider orders
      | none => afterDeliver walls algo hotels rider orders
    else if rider.status = RiderStatus.RETURNING then
      ({ rider with
          status := RiderStatus.IDLE, assignedOrderIds := [],
          targetEntityId := none }, orders, 0, [])
    else (rider, orders, 0, [])

/-- `riders.map(...)` with the `nextOrders` mutations threaded left to
right, accumulating the distance delta and the path-trace additions. -/
def tickRiders (now : Nat) (hotels homes : List Entity) (walls : List Pos)
    (algo : Algorithm) : List Rider → List Order → List Rider × List Order × Nat × List Pos
  | [], orders => ([], orders, 0, [])
  | r :: rs, orders =>
    match tickRider now hotels homes walls algo orders r with
    | (r', orders1, d1, t1) =>
      match tickRiders now hotels homes walls algo rs orders1 with
      | (rs', orders2, d2, t2) => (r' :: rs', orders2, d1 + d2, t1 ++ t2)

/-- The per-order rider choice of the pending-order dispatcher: the Robin
Hood branch averages all riders' earnings, keeps the available riders at or
below the average (all of them when none is), stable-sorts by earnings and
takes the first, relocating it within `availableRiders` by id; the greedy
branch stable-sorts the available riders by Manhattan distance to the hotel
and takes the first. -/
def dispatchChoose (fairnessMode : Bool) (allRiders avail : List Rider)
    (hotelPos : Pos) : Option Rider :=
  match avail with
  | [] => none
  | a0 :: _ =>
    if fairnessMode then
      let avg : ℚ := (allRiders.foldl (fun s r => s + (r.totalEarnings : ℚ)) 0) /
        (allRiders.length : ℚ)
      let candidates := avail.filter (fun r => (r.totalEarnings : ℚ) ≤ avg)
      let cands := if candidates.isEmpty then avail else candidates
      match sortByKey (fun r => r.totalEarnings) cands with
      | best :: _ => some ((avail.find? (fun r => r.id = best.id)).getD best)
      | [] => some a0
    else
      some ((sortByKey (fun r => getManhattanDistance r.pos hotelPos) avail).headD a0)

/-- One iteration of the `pendingOrders.forEach` dispatcher: re-check the
idle pool, resolve the hotel, choose a rider, and on a successful path set
it moving to the hotel with exactly this order while stamping the order's
`riderId`. -/
def dispatchOne (fairnessMode : Bool) (hotels : List Entity) (walls : List Pos)
    (algo : Algorithm) (state : List Rider × List Order) (order : Order) :
    List Rider × List Order :=
  match state with
  | (riders, orders) =>
    let avail := riders.filter (fun r => r.status = RiderStatus.IDLE)
    if avail.isEmpty then (riders, orders)
    else
      match hotels.find? (fun h => h.id = order.hotelId) with
      | none => (riders, orders)
      | some hotel =>
        match dispatchChoose fairnessMode riders avail hotel.pos with
        | none => (riders, orders)
        | some chosen =>
          if riders.any (fun r => r.id = chosen.id) then
            match findPath chosen.pos hotel.pos walls algo with
            | some pr =>
              (updateFirst (fun r => r.id = chosen.id)
                 (fun r => { r with
                   status := RiderStatus.MOVING_TO_HOTEL,
                   targetEntityId := some hotel.id, assignedOrderIds := [order.id],
                   pathQueue := pr.path.drop 1 }) riders,
               updateFirst (fun o => o.id = order.id)
                 (fun o => { o with riderId := some chosen.id }) orders)
            | none => (riders, orders)
          else (riders, orders)

/-- The pending-order dispatcher block: fold `dispatchOne` over the
snapshot of unassigned undelivered orders, guarded by a non-empty pending
list and an initially non-empty idle pool. -/
def dispatchPending (fairnessMode : Bool) (hotels : List Entity) (walls : List Pos)
    (algo : Algorithm) (riders : List Rider) (orders : List Order) :
    List Rider × List Order :=
  let pending := orders.filter (fun o =>
    o.riderId = none ∧ o.status ≠ OrderStatus.DELIVERED)
  if pending.isEmpty then (riders, orders)
  else if (riders.filter (fun r => r.status = RiderStatus.IDLE)).isEmpty then
    (riders, orders)
  else pending.foldl (dispatchOne fairnessMode hotels walls algo) (riders, orders)

/-- The rider-sync of the DEMO_FAIRNESS block: replace the first rider with
a matching id whose assigned-order count differs. -/
def syncRider (rs : List Rider) (ur : Rider) : List Rider :=
  match rs.findIdx? (fun nr => nr.id = ur.id) with
  | some idx =>
    if (rs.getD idx ur).assignedOrderIds.length ≠ ur.assignedOrderIds.length then
      rs.set idx ur
    else rs
  | none => rs

/-- Modelled from the spec: the DEMO_FAIRNESS auto-generation step fires on
a wall-clock timer and calls the random `generateRandomOrders`, neither of
which is reproducible; the oracle `demo` supplies its firing and its
returned `(newOrders, updatedRiders)`.  The surrounding code is from the
source: the sub-20 active-order guard, order appending, and the rider
sync. -/
def applyDemo (demo : Option (List Order × List Rider))
    (riders : List Rider) (orders : List Order) : List Rider × List Order :=
  match demo with
  | none => (riders, orders)
  | some (newOrders, updatedRiders) =>
    if (orders.filter (fun o => o.status ≠ OrderStatus.DELIVERED)).length < 20 then
      if newOrders.isEmpty then (riders, orders)
      else (updatedRiders.foldl syncRider riders, orders ++ newOrders)
    else (riders, orders)

/-- `handleSimulationTick` (main application file): cooking timers, the
rider map with threaded order mutations, the pending-order dispatcher, and
the demo auto-generation step. -/
def handleSimulationTick (now : Nat) (fairnessMode : Bool)
    (demo : Option (List Order × List Rider)) (w : World) : World :=
  let cooked := w.orders.map cookOrder
  match tickRiders now w.hotels w.homes w.walls w.algorithm w.riders cooked with
  | (riders1, orders1, dDelta, trace) =>
    match dispatchPending fairnessMode w.hotels w.walls w.algorithm riders1 orders1 with
    | (riders2, orders2) =>
      match applyDemo demo riders2 orders2 with
      | (riders3, orders3) =>
        { w with
          riders := riders3, orders := orders3,
          pathTrace := w.pathTrace ++ trace,
          distanceTraveled := w.distanceTraveled + dDelta }

/-- The riders already headed to or waiting at the given hotel
(`activeRidersForHotel` in `createOrder`). -/
def activeForHotel (riders : List Rider) (hotelId : Nat) : List Rider :=
  riders.filter (fun r =>
    (r.status = RiderStatus.MOVING_TO_HOTEL ∨ r.status = RiderStatus.WAITING_FOR_FOOD) ∧
    r.targetEntityId = some hotelId)

/-- `BATCH_DISTANCE_THRESHOLD` in `createOrder`. -/
def BATCH_DISTANCE_THRESHOLD : Nat := 8

/-- The body of the batching scan for one of the rider's existing orders:
keep the incumbent `(minDetour, bestRider)` unless the order's resolved
home lies within the threshold of the new home and strictly closer than the
incumbent. -/
def batchStep (homes : List Entity) (newHomePos : Pos) (rider : Rider) (o : Order)
    (best : Option (Nat × Rider)) : Option (Nat × Rider) :=
  match homes.find? (fun h => h.id = o.homeId) with
  | some existingHome =>
    let dist := getManhattanDistance existingHome.pos newHomePos
    if dist ≤ BATCH_DISTANCE_THRESHOLD then
      match best with
      | none => some (dist, rider)
      | some (md, br) => if dist < md then some (dist, rider) else some (md, br)
    else best
  | none => best

/-- The inner loop of the batching scan over one rider's existing orders. -/
def batchScanOrders (homes : List Entity) (newHomePos : Pos) (rider : Rider) :
    List Order → Option (Nat × Rider) → Option (Nat × Rider)
  | [], best => best
  | o :: rest, best =>
    batchScanOrders homes newHomePos rider rest (batchStep homes newHomePos rider o best)

/-- The outer loop of the batching scan over the hotel's active riders,
each scanning the orders currently assigned to it. -/
def batchScan (homes : List Entity) (orders : List Order) (newHomePos : Pos) :
    List Rider → Option (Nat × Rider) → Option (Nat × Rider)
  | [], best => best
  | r :: rs, best =>
    batchScan homes orders newHomePos rs
      (batchScanOrders homes newHomePos r
        (orders.filter (fun o => r.assignedOrderIds.contains o.id)) best)

/-- The idle pool (`riders.filter(r => r.status === 'IDLE')`). -/
def idleOf (riders : List Rider) : List Rider :=
  riders.filter (fun r => r.status = RiderStatus.IDLE)

/-- Modelled from the spec: `fairnessMode` dispatch in `createOrder` calls
a weighted `solveAssignment(idleRiders, [hotel.pos], alpha)` overload whose
implementation is not in `src/`; the spec describes it as picking some idle
rider by earnings-weighted assignment, falling back to the first idle rider
when it returns nothing.  It is abstracted as an arbitrary index choice
into the idle pool, out-of-range indices falling back to the first idle
rider. -/
def fairnessChosen (fairnessPick : List Rider → Pos → Nat) (idle : List Rider)
    (hotelPos : Pos) (r0 : Rider) : Rider :=
  idle.getD (fairnessPick idle hotelPos) r0

/-- The rider picked by the normal-dispatch branch of `createOrder` from a
non-empty idle pool: the abstract fairness choice, or the head of the idle
pool stable-sorted by Manhattan distance to the hotel. -/
def dispatchChosen (fairnessMode : Bool) (fairnessPick : List Rider → Pos → Nat)
    (idle : List Rider) (hotelPos : Pos) : Option Rider :=
  match idle with
  | [] => none
  | i0 :: _ =>
    some (if fairnessMode then fairnessChosen fairnessPick idle hotelPos i0
      else (sortByKey (fun r => getManhattanDistance r.pos hotelPos) idle).headD i0)

/-- `createOrder(homeId, hotelId)` (main application file).  The fresh UUID
is the parameter `newId`.  Branches in source order: smart batching onto
the best active rider; with no idle riders, forced batching onto the first
active rider, else queueing the unassigned order; otherwise normal dispatch
of the chosen idle rider, which drops the order entirely (early `return`
before the final `setOrders`) when `findPath` fails. -/
def createOrder (fairnessMode : Bool) (fairnessPick : List Rider → Pos → Nat)
    (w : World) (newId homeId hotelId : Nat) : World :=
  match w.homes.find? (fun h => h.id = homeId),
      w.hotels.find? (fun h => h.id = hotelId) with
  | some home, some hotel =>
    let newOrder : Order := {
      id := newId, homeId := homeId, hotelId := hotelId,
      riderId := none, status := OrderStatus.COOKING,
      cookingTimeRemainingMs := COOKING_TIME_MS }
    match batchScan w.homes w.orders home.pos (activeForHotel w.riders hotelId) none with
    | some (_, bestRider) =>
      { w with
        riders := w.riders.map (fun r =>
          if r.id = bestRider.id then
            { r with assignedOrderIds := r.assignedOrderIds ++ [newId] }
          else r),
        orders := w.orders ++ [{ newOrder with riderId := some bestRider.id }] }
    | none =>
      match idleOf w.riders with
      | [] =>
        match activeForHotel w.riders hotelId with
        | fallbackRider :: _ =>
          { w with
            riders := w.riders.map (fun r =>
              if r.id = fallbackRider.id then
                { r with assignedOrderIds := r.assignedOrderIds ++ [newId] }
              else r),
            orders := w.orders ++ [{ newOrder with riderId := some fallbackRider.id }] }
        | [] => { w with orders := w.orders ++ [newOrder] }
      | i0 :: irest =>
        match dispatchChosen fairnessMode fairnessPick (i0 :: irest) hotel.pos with
        | none => w
        | some chosen =>
          match findPath chosen.pos hotel.pos w.walls w.algorithm with
          | none => w
          | some pr =>
            { w with
              riders := w.riders.map (fun r =>
                if r.id = chosen.id then
                  { r with
                    status := RiderStatus.MOVING_TO_HOTEL,
                    targetEntityId := some hotelId, assignedOrderIds := [newId],
                    pathQueue := pr.path.drop 1 }
                else r),
              orders := w.orders ++ [{ newOrder with riderId := some chosen.id }] }
  | _, _ => w

/-- A user/driver operation on the simulation: one timer tick (with its
wall-clock reading, fairness flag and demo oracle) or one order creation. -/
inductive SimOp where
  | tick (now : Nat) (fairnessMode : Bool) (demo : Option (List Order × List Rider))
  | create (fairnessMode : Bool) (fairnessPick : List Rider → Pos → Nat)
      (newId homeId hotelId : Nat)

/-- Run a sequence of operations left to right. -/
def runOps (w : World) : List SimOp → World
  | [] => w
  | SimOp.tick now fm demo :: ops => runOps (handleSimulationTick now fm demo w) ops
  | SimOp.create fm fp newId homeId hotelId :: ops =>
    runOps (createOrder fm fp w newId homeId hotelId) ops

theorem moveLoop_spec : ∀ (q : List Pos) (pos : Pos) (acc : ℚ), 0 ≤ acc →
    ∃ p', moveLoop pos acc q =
      (acc - (min q.length ⌊acc⌋₊ : ℕ), p', q.drop (min q.length ⌊acc⌋₊),
       min q.length ⌊acc⌋₊) := by
  intro q
  induction q with
  | nil =>
    intro pos acc hacc
    exact ⟨pos, by simp [moveLoop]⟩
  | cons p rest ih =>
    intro pos acc hacc
    by_cases h1 : 1 ≤ acc
    · have hfl : 1 ≤ ⌊acc⌋₊ := Nat.le_floor (by exact_mod_cast h1)
      have hsub : ⌊acc - 1⌋₊ = ⌊acc⌋₊ - 1 := by
        have h := Nat.floor_sub_nat acc 1
        simpa using h
      obtain ⟨p', hp'⟩ := ih p (acc - 1) (by linarith)
      refine ⟨p', ?_⟩
      have hmin : min (p :: rest).length ⌊acc⌋₊ = min rest.length ⌊acc - 1⌋₊ + 1 := by
        rw [hsub]
        simp only [List.length_cons]
        omega
      rw [hmin]
      simp only [moveLoop, if_pos h1, hp']
      refine Prod.ext ?_ (Prod.ext rfl (Prod.ext ?_ rfl))
      · push_cast
        ring
      · simp [List.drop_succ_cons]
    · have hfl : ⌊acc⌋₊ = 0 := Nat.floor_eq_zero.mpr (lt_of_not_le h1)
      refine ⟨pos, ?_⟩
      rw [hfl]
      simp [moveLoop, if_neg h1]

/-- Movement over `k` uninterrupted ticks from a zero accumulator: the
remaining queue is the original minus `⌊k·s⌋` popped cells until the queue
drains at tick `⌈n/s⌉`, and the accumulator is the fractional part `k·s -
⌊k·s⌋` until then and freezes at `⌈n/s⌉·s - n` once drained. -/
theorem tickN_drain_inv (q0 : List Pos) (s : ℚ) (hs : 0 < s) (r : Rider)
    (hr_speed : r.speed = s) (hr_acc : r.movementAccumulator = 0)
    (hr_q : r.pathQueue = q0) : ∀ k : Nat,
    (tickN r k).speed = s ∧
    (tickN r k).pathQueue = q0.drop (min q0.length ⌊(k : ℚ) * s⌋₊) ∧
    (tickN r k).movementAccumulator =
      (if (k : ℚ) * s < (q0.length : ℚ) then (k : ℚ) * s - (⌊(k : ℚ) * s⌋₊ : ℚ)
       else (⌈(q0.length : ℚ) / s⌉₊ : ℚ) * s - (q0.length : ℚ)) := by
  intro k
  induction k with
  | zero =>
    refine ⟨hr_speed, ?_, ?_⟩
    · show r.pathQueue = _
      rw [hr_q]
      simp
    · show r.movementAccumulator = _
      rw [hr_acc]
      by_cases h0 : 0 < q0.length
      · rw [if_pos (by simp only [Nat.cast_zero, zero_mul]; exact_mod_cast h0)]
        simp
      · have hn : q0.length = 0 := by omega
        rw [hn]
        simp
  | succ k ih =>
    obtain ⟨ihs, ihq, iha⟩ := ih
    have hks0 : (0 : ℚ) ≤ (k : ℚ) * s := by positivity
    have hksmono : (k : ℚ) * s ≤ ((k + 1 : ℕ) : ℚ) * s := by
      push_cast
      nlinarith
    by_cases hkn : (k : ℚ) * s < (q0.length : ℚ)
    · -- not yet drained after k ticks
      have hflt : ⌊(k : ℚ) * s⌋₊ < q0.length := (Nat.floor_lt hks0).mpr hkn
      have hmin : min q0.length ⌊(k : ℚ) * s⌋₊ = ⌊(k : ℚ) * s⌋₊ :=
        Nat.min_eq_right (le_of_lt hflt)
      have hqk : (tickN r k).pathQueue = q0.drop ⌊(k : ℚ) * s⌋₊ := by rw [ihq, hmin]
      have hne : (tickN r k).pathQueue ≠ [] := by
        rw [hqk]
        intro hcontra
        exact absurd (List.drop_eq_nil_iff.mp hcontra) (by omega)
      obtain ⟨c, cs, hcons⟩ := List.exists_cons_of_ne_nil hne
      have hacck : (tickN r k).movementAccumulator =
          (k : ℚ) * s - (⌊(k : ℚ) * s⌋₊ : ℚ) := by rw [iha, if_pos hkn]
      have haccnn : (0 : ℚ) ≤ (tickN r k).movementAccumulator + (tickN r k).speed := by
        rw [hacck, ihs]
        have := Nat.floor_le hks0
        linarith
      obtain ⟨p', hloop⟩ := moveLoop_spec (tickN r k).pathQueue (tickN r k).pos
        ((tickN r k).movementAccumulator + (tickN r k).speed) haccnn
      have hstep : tickN r (k + 1) =
          { tickN r k with
            pos := p',
            pathQueue := (tickN r k).pathQueue.drop
              (min (tickN r k).pathQueue.length
                ⌊(tickN r k).movementAccumulator + (tickN r k).speed⌋₊),
            movementAccumulator := (tickN r k).movementAccumulator + (tickN r k).speed -
              ((min (tickN r k).pathQueue.length
                ⌊(tickN r k).movementAccumulator + (tickN r k).speed⌋₊ : ℕ) : ℚ) } := by
        show tickMove (tickN r k) = _
        rw [tickMove]
        rw [show (tickN r k).pathQueue = c :: cs from hcons] at hloop ⊢
        rw [hloop]
      have hlen : (tickN r k).pathQueue.length = q0.length - ⌊(k : ℚ) * s⌋₊ := by
        rw [hqk, List.length_drop]
      have hflacc : ⌊(tickN r k).movementAccumulator + (tickN r k).speed⌋₊ =
          ⌊((k + 1 : ℕ) : ℚ) * s⌋₊ - ⌊(k : ℚ) * s⌋₊ := by
        rw [hacck, ihs]
        rw [show (k : ℚ) * s - (⌊(k : ℚ) * s⌋₊ : ℚ) + s =
          ((k + 1 : ℕ) : ℚ) * s - (⌊(k : ℚ) * s⌋₊ : ℚ) by push_cast; ring]
        exact Nat.floor_sub_nat _ _
      have hflmono : ⌊(k : ℚ) * s⌋₊ ≤ ⌊((k + 1 : ℕ) : ℚ) * s⌋₊ :=
        Nat.floor_le_floor hksmono
      by_cases h2 : ((k + 1 : ℕ) : ℚ) * s < (q0.length : ℚ)
      · -- still not drained
        have hflt2 : ⌊((k + 1 : ℕ) : ℚ) * s⌋₊ < q0.length :=
          (Nat.floor_lt (le_trans hks0 hksmono)).mpr h2
        have hminstep : min (tickN r k).pathQueue.length
            ⌊(tickN r k).movementAccumulator + (tickN r k).speed⌋₊ =
            ⌊((k + 1 : ℕ) : ℚ) * s⌋₊ - ⌊(k : ℚ) * s⌋₊ := by
          rw [hlen, hflacc]
          omega
        refine ⟨?_, ?_, ?_⟩
        · rw [hstep]
          exact ihs
        · rw [hstep]
          show (tickN r k).pathQueue.drop _ = _
          rw [hminstep, hqk, List.drop_drop,
            show ⌊(k : ℚ) * s⌋₊ + (⌊((k + 1 : ℕ) : ℚ) * s⌋₊ - ⌊(k : ℚ) * s⌋₊) =
              ⌊((k + 1 : ℕ) : ℚ) * s⌋₊ by omega,
            Nat.min_eq_right (le_of_lt hflt2)]
        · rw [hstep]
          show (tickN r k).movementAccumulator + (tickN r k).speed - _ = _
          rw [hminstep, hacck, ihs, if_pos h2]
          rw [Nat.cast_sub hflmono]
          push_cast
          ring
      · -- drains at this tick
        have hge : q0.length ≤ ⌊((k + 1 : ℕ) : ℚ) * s⌋₊ :=
          Nat.le_floor (le_of_not_lt h2)
        have hminstep : min (tickN r k).pathQueue.length
            ⌊(tickN r k).movementAccumulator + (tickN r k).speed⌋₊ =
            q0.length - ⌊(k : ℚ) * s⌋₊ := by
          rw [hlen, hflacc]
          omega
        have hceil : ⌈(q0.length : ℚ) / s⌉₊ = k + 1 := by
          refine le_antisymm ?_ ?_
          · rw [Nat.ceil_le]
            rw [div_le_iff₀ hs]
            push_cast
            push_cast at h2
            linarith [le_of_not_lt h2]
          · have : k < ⌈(q0.length : ℚ) / s⌉₊ := by
              rw [Nat.lt_ceil]
              rw [lt_div_iff₀ hs]
              linarith
            omega
        refine ⟨?_, ?_, ?_⟩
        · rw [hstep]
          exact ihs
        · rw [hstep]
          show (tickN r k).pathQueue.drop _ = _
          rw [hminstep, hqk, List.drop_drop,
            show ⌊(k : ℚ) * s⌋₊ + (q0.length - ⌊(k : ℚ) * s⌋₊) = q0.length by omega,
            show min q0.length ⌊((k + 1 : ℕ) : ℚ) * s⌋₊ = q0.length by omega]
        · rw [hstep]
          show (tickN r k).movementAccumulator + (tickN r k).speed - _ = _
          rw [hminstep, hacck, ihs, if_neg (by push_cast; push_cast at h2; linarith [le_of_not_lt h2]),
            hceil, Nat.cast_sub (le_of_lt hflt)]
          push_cast
          ring
    · -- already drained after k ticks
      have hnk : (q0.length : ℚ) ≤ (k : ℚ) * s := le_of_not_lt hkn
      have hge : q0.length ≤ ⌊(k : ℚ) * s⌋₊ := Nat.le_floor hnk
      have hqk : (tickN r k).pathQueue = [] := by
        rw [ihq, Nat.min_eq_left hge, List.drop_length]
      have hstep : tickN r (k + 1) = tickN r k := by
        show tickMove (tickN r k) = _
        rw [tickMove, hqk]
      have hge2 : q0.length ≤ ⌊((k + 1 : ℕ) : ℚ) * s⌋₊ :=
        le_trans hge (Nat.floor_le_floor hksmono)
      refine ⟨?_, ?_, ?_⟩
      · rw [hstep]
        exact ihs
      · rw [hstep, hqk, Nat.min_eq_left hge2, List.drop_length]
      · rw [hstep, iha, if_neg hkn, if_neg (by push_cast; linarith)]

/-- C5 (corrected): starting from a zero accumulator, the movement rule
drains an `n`-cell queue at speed `s > 0` in exactly `⌈n / s⌉` uninterrupted
ticks, and after every tick the accumulator is non-negative and at most
`max 1 s` — the spec's bound `s` itself fails for speeds below one. -/
theorem C5_theorem (r : Rider) (k : Nat) (hs : 0 < r.speed)
    (hacc : r.movementAccumulator = 0)
    (hk : k = ⌈(r.pathQueue.length : ℚ) / r.speed⌉₊) :
    (tickN r k).pathQueue = [] ∧
    (∀ j, j < k → (tickN r j).pathQueue ≠ []) ∧
    (∀ j, 0 ≤ (tickN r j).movementAccumulator ∧
      (tickN r j).movementAccumulator ≤ max 1 r.speed) := by
  have inv := tickN_drain_inv r.pathQueue r.speed hs r rfl hacc rfl
  refine ⟨?_, ?_, ?_⟩
  · obtain ⟨-, hq, -⟩ := inv k
    have h1 : (r.pathQueue.length : ℚ) ≤ (k : ℚ) * r.speed := by
      rw [← div_le_iff₀ hs]
      exact Nat.ceil_le.mp (hk ▸ le_refl k)
    have h2 : r.pathQueue.length ≤ ⌊(k : ℚ) * r.speed⌋₊ := Nat.le_floor h1
    rw [hq, Nat.min_eq_left h2, List.drop_length]
  · intro j hj
    obtain ⟨-, hq, -⟩ := inv j
    have h1 : (j : ℚ) * r.speed < (r.pathQueue.length : ℚ) := by
      rw [← lt_div_iff₀ hs]
      exact Nat.lt_ceil.mp (hk ▸ hj)
    have h2 : ⌊(j : ℚ) * r.speed⌋₊ < r.pathQueue.length :=
      (Nat.floor_lt (by positivity)).mpr h1
    rw [hq, Nat.min_eq_right (le_of_lt h2)]
    intro hcontra
    have h3 := List.drop_eq_nil_iff.mp hcontra
    omega
  · intro j
    obtain ⟨-, -, ha⟩ := inv j
    by_cases hj : (j : ℚ) * r.speed < (r.pathQueue.length : ℚ)
    · rw [ha, if_pos hj]
      constructor
      · have h4 := Nat.floor_le (show (0 : ℚ) ≤ (j : ℚ) * r.speed by positivity)
        linarith
      · have h5 := Nat.lt_floor_add_one ((j : ℚ) * r.speed)
        have hle : (j : ℚ) * r.speed - (⌊(j : ℚ) * r.speed⌋₊ : ℚ) ≤ 1 := by linarith
        exact le_trans hle (le_max_left 1 r.speed)
    · rw [ha, if_neg hj]
      by_cases hn : r.pathQueue.length = 0
      · rw [hn]
        constructor
        · simp
        · have h6 : ((⌈((0 : ℕ) : ℚ) / r.speed⌉₊ : ℚ) * r.speed - ((0 : ℕ) : ℚ)) = 0 := by
            simp
          rw [h6]
          exact le_trans zero_le_one (le_max_left 1 r.speed)
      · constructor
        · have h1 : (r.pathQueue.length : ℚ) / r.speed ≤
              (⌈(r.pathQueue.length : ℚ) / r.speed⌉₊ : ℚ) := Nat.le_ceil _
          rw [div_le_iff₀ hs] at h1
          linarith
        · have hpos : 0 < ⌈(r.pathQueue.length : ℚ) / r.speed⌉₊ :=
            Nat.ceil_pos.mpr (div_pos (by exact_mod_cast Nat.pos_of_ne_zero hn) hs)
          have h2 : ((⌈(r.pathQueue.length : ℚ) / r.speed⌉₊ - 1 : ℕ) : ℚ) <
              (r.pathQueue.length : ℚ) / r.speed := Nat.lt_ceil.mp (by omega)
          rw [lt_div_iff₀ hs] at h2
          rw [Nat.cast_sub (by omega : 1 ≤ ⌈(r.pathQueue.length : ℚ) / r.speed⌉₊)] at h2
          push_cast at h2
          have h3 : (⌈(r.pathQueue.length : ℚ) / r.speed⌉₊ : ℚ) * r.speed -
              (r.pathQueue.length : ℚ) ≤ r.speed := by nlinarith
          exact le_trans h3 (le_max_right 1 r.speed)

/-- A rider at speed 3/5 with a three-cell queue and a fresh accumulator. -/
def c5Rider : Rider := {
  id := 1, pos := ⟨0, 0⟩, speed := 3/5, status := RiderStatus.DELIVERING,
  targetEntityId := none, assignedOrderIds := [], deliveryQueue := [],
  pathQueue := [⟨0, 1⟩, ⟨0, 2⟩, ⟨0, 3⟩], movementAccumulator := 0,
  totalEarnings := 0, totalOrdersDelivered := 0, totalDistanceTraveled := 0 }

/-- C5 counterexample: after the third uninterrupted tick at speed 3/5 the
accumulator holds 4/5, exceeding the speed — the claimed bound
"never exceeds s" fails for speeds below one. -/
theorem C5_counterexample :
    c5Rider.movementAccumulator = 0 ∧
    c5Rider.speed < (tickN c5Rider 3).movementAccumulator := by
  constructor
  · rfl
  · show (3/5 : ℚ) < (tickN c5Rider 3).movementAccumulator
    norm_num [tickN, tickMove, moveLoop, c5Rider]

/-- The same rider at speed 2: the queue drains in `⌈3 / 2⌉ = 2` ticks. -/
def c5wRider : Rider := { c5Rider with speed := 2 }

/-- C5 witness: a three-cell queue at speed 2 drains at tick 2, is still
non-empty after tick 1, and the accumulator stays within `[0, max 1 2]`. -/
theorem C5_witness :
    (tickN c5wRider 2).pathQueue = [] ∧
    (tickN c5wRider 1).pathQueue ≠ [] ∧
    0 ≤ (tickN c5wRider 1).movementAccumulator ∧
    (tickN c5wRider 1).movementAccumulator ≤ max 1 c5wRider.speed := by
  have h := C5_theorem c5wRider 2 (by norm_num [c5wRider, c5Rider])
    (by norm_num [c5wRider, c5Rider])
    (by
      have hq : (c5wRider.pathQueue.length : ℚ) / c5wRider.speed = 3/2 := by
        norm_num [c5wRider, c5Rider]
      rw [hq]
      have h1 : ⌈(3 : ℚ)/2⌉₊ ≤ 2 := Nat.ceil_le.mpr (by norm_num)
      have h2 : 1 < ⌈(3 : ℚ)/2⌉₊ := Nat.lt_ceil.mpr (by norm_num)
      omega)
  exact ⟨h.1, h.2.1 1 (by norm_num), (h.2.2 1).1, (h.2.2 1).2⟩

/-- An idle rider at the origin with unit speed and no assignments. -/
def baseRider : Rider := {
  id := 1, pos := ⟨0, 0⟩, speed := 1, status := RiderStatus.IDLE,
  targetEntityId := none, assignedOrderIds := [], deliveryQueue := [],
  pathQueue := [], movementAccumulator := 0,
  totalEarnings := 0, totalOrdersDelivered := 0, totalDistanceTraveled := 0 }

/-- A world whose only (idle) rider sits at the origin, walled in by cells
(0,1) and (1,0), with the hotel outside the enclosure. -/
def c4World : World := {
  riders := [baseRider], orders := [],
  hotels := [⟨1, ⟨5, 5⟩⟩], homes := [⟨10, ⟨6, 6⟩⟩],
  walls := [⟨0, 1⟩, ⟨1, 0⟩], algorithm := Algorithm.DIJKSTRA,
  pathTrace := [], distanceTraveled := 0 }

/-- C4 (corrected): when the normal-dispatch branch of `createOrder` finds
no path from the chosen idle rider to the hotel, the early `return` fires
before the final `setOrders`: the whole world is unchanged — the rider is
untouched, and the new order is discarded entirely instead of remaining
unassigned in the order collection. -/
theorem C4_theorem (fairnessMode : Bool) (fairnessPick : List Rider → Pos → Nat)
    (w : World) (newId homeId hotelId : Nat) (home hotel : Entity) (chosen : Rider)
    (hhome : w.homes.find? (fun h => h.id = homeId) = some home)
    (hhotel : w.hotels.find? (fun h => h.id = hotelId) = some hotel)
    (hbatch : batchScan w.homes w.orders home.pos
      (activeForHotel w.riders hotelId) none = none)
    (hidle : idleOf w.riders ≠ [])
    (hchosen : dispatchChosen fairnessMode fairnessPick (idleOf w.riders)
      hotel.pos = some chosen)
    (hpath : findPath chosen.pos hotel.pos w.walls w.algorithm = none) :
    createOrder fairnessMode fairnessPick w newId homeId hotelId = w := by
  obtain ⟨i0, irest, hcons⟩ := List.exists_cons_of_ne_nil hidle
  have hchosen' := hchosen
  rw [hcons] at hchosen'
  rw [createOrder, hhome, hhotel]
  simp only [hbatch, hcons, hchosen', hpath]

/-- C4 counterexample: in `c4World` the chosen rider cannot reach the
hotel, and after `createOrder` the order collection is still empty — the
new order was not kept unassigned for a later retry, it was dropped. -/
theorem C4_counterexample :
    findPath baseRider.pos ⟨5, 5⟩ c4World.walls c4World.algorithm = none ∧
    (createOrder false (fun _ _ => 0) c4World 99 10 1).orders = [] := by
  constructor
  · decide
  · decide

/-- C4 witness: the amended theorem applied to `c4World`. -/
theorem C4_witness :
    createOrder false (fun _ _ => 0) c4World 99 10 1 = c4World :=
  C4_theorem false (fun _ _ => 0) c4World 99 10 1 ⟨10, ⟨6, 6⟩⟩ ⟨1, ⟨5, 5⟩⟩ baseRider
    (by decide) (by decide) (by decide) (by decide) (by decide) (by decide)

/-- An order qualifies for batching at detour `d`: its home resolves and
lies within the batching threshold of the new order's home, at distance
exactly `d`. -/
def OrderQualifies (homes : List Entity) (newHomePos : Pos) (d : Nat) (o : Order) : Prop :=
  ∃ h, homes.find? (fun hh => hh.id = o.homeId) = some h ∧
    d = getManhattanDistance h.pos newHomePos ∧ d ≤ BATCH_DISTANCE_THRESHOLD

/-- A `(detour, rider)` pair the batching scan can select: the rider is
active for the hotel and one of its assigned orders qualifies at detour
`d`. -/
def BatchQualifies (homes : List Entity) (orders : List Order) (newHomePos : Pos)
    (active : List Rider) (d : Nat) (r : Rider) : Prop :=
  r ∈ active ∧ ∃ o ∈ orders, r.assignedOrderIds.contains o.id ∧
    OrderQualifies homes newHomePos d o

theorem batchStep_mono (homes : List Entity) (hp : Pos) (r : Rider) (o : Order)
    (best : Option (Nat × Rider)) (md : Nat) (bp : Rider) (hb : best = some (md, bp)) :
    ∃ v w, batchStep homes hp r o best = some (v, w) ∧ v ≤ md := by
  subst hb
  rcases hfind : homes.find? (fun h => h.id = o.homeId) with _ | eh
  · exact ⟨md, bp, by rw [batchStep, hfind], le_refl _⟩
  · rw [batchStep, hfind]
    by_cases h8 : getManhattanDistance eh.pos hp ≤ BATCH_DISTANCE_THRESHOLD
    · by_cases hlt : getManhattanDistance eh.pos hp < md
      · exact ⟨_, r, by simp only [if_pos h8, if_pos hlt], Nat.le_of_lt hlt⟩
      · exact ⟨md, bp, by simp only [if_pos h8, if_neg hlt], le_refl _⟩
    · exact ⟨md, bp, by simp only [if_neg h8], le_refl _⟩

theorem batchStep_reach (homes : List Entity) (hp : Pos) (r : Rider) (o : Order)
    (best : Option (Nat × Rider)) :
    batchStep homes hp r o best = best ∨
    ∃ d, OrderQualifies homes hp d o ∧ batchStep homes hp r o best = some (d, r) := by
  rcases hfind : homes.find? (fun h => h.id = o.homeId) with _ | eh
  · exact Or.inl (by rw [batchStep, hfind])
  · by_cases h8 : getManhattanDistance eh.pos hp ≤ BATCH_DISTANCE_THRESHOLD
    · rcases hb : best with _ | ⟨md, bp⟩
      · exact Or.inr ⟨getManhattanDistance eh.pos hp, ⟨eh, hfind, rfl, h8⟩,
          by rw [batchStep, hfind]; simp only [if_pos h8]⟩
      · by_cases hlt : getManhattanDistance eh.pos hp < md
        · exact Or.inr ⟨getManhattanDistance eh.pos hp, ⟨eh, hfind, rfl, h8⟩,
            by rw [batchStep, hfind]; simp only [if_pos h8, if_pos hlt]⟩
        · exact Or.inl (by rw [batchStep, hfind]; simp only [if_pos h8, if_neg hlt])
    · exact Or.inl (by rw [batchStep, hfind]; simp only [if_neg h8])

theorem batchStep_min (homes : List Entity) (hp : Pos) (r : Rider) (o : Order)
    (best : Option (Nat × Rider)) (dq : Nat) (hq : OrderQualifies homes hp dq o) :
    ∃ v w, batchStep homes hp r o best = some (v, w) ∧ v ≤ dq := by
  obtain ⟨h, hfind, hd, h8⟩ := hq
  subst hd
  rw [batchStep, hfind]
  simp only [if_pos h8]
  rcases best with _ | ⟨md, bp⟩
  · exact ⟨_, r, rfl, le_refl _⟩
  · by_cases hlt : getManhattanDistance h.pos hp < md
    · exact ⟨_, r, by simp only [if_pos hlt], le_refl _⟩
    · exact ⟨md, bp, by simp only [if_neg hlt], Nat.le_of_not_lt hlt⟩

theorem batchScanOrders_mono (homes : List Entity) (hp : Pos) (r : Rider) :
    ∀ (os : List Order) (best : Option (Nat × Rider)) (md : Nat) (bp : Rider),
      best = some (md, bp) →
      ∃ v w, batchScanOrders homes hp r os best = some (v, w) ∧ v ≤ md := by
  intro os
  induction os with
  | nil =>
    intro best md bp hb
    exact ⟨md, bp, by rw [batchScanOrders, hb], le_refl _⟩
  | cons o rest ih =>
    intro best md bp hb
    obtain ⟨v1, w1, hstep, hle1⟩ := batchStep_mono homes hp r o best md bp hb
    obtain ⟨v, w, hrec, hle⟩ := ih (batchStep homes hp r o best) v1 w1 hstep
    exact ⟨v, w, by rw [batchScanOrders]; exact hrec, Nat.le_trans hle hle1⟩

theorem batchScanOrders_reach (homes : List Entity) (hp : Pos) (r : Rider) :
    ∀ (os : List Order) (best : Option (Nat × Rider)),
      batchScanOrders homes hp r os best = best ∨
      ∃ d, (∃ o ∈ os, OrderQualifies homes hp d o) ∧
        batchScanOrders homes hp r os best = some (d, r) := by
  intro os
  induction os with
  | nil => intro best; exact Or.inl (by rw [batchScanOrders])
  | cons o rest ih =>
    intro best
    have hred : batchScanOrders homes hp r (o :: rest) best =
        batchScanOrders homes hp r rest (batchStep homes hp r o best) := by
      rw [batchScanOrders]
    rcases ih (batchStep homes hp r o best) with hsame | ⟨d, ⟨o', ho', hq⟩, heq⟩
    · rw [hred, hsame]
      rcases batchStep_reach homes hp r o best with hb | ⟨d, hq, heq⟩
      · exact Or.inl hb
      · exact Or.inr ⟨d, ⟨o, List.mem_cons_self _ _, hq⟩, heq⟩
    · exact Or.inr ⟨d, ⟨o', List.mem_cons_of_mem _ ho', hq⟩, by rw [hred]; exact heq⟩

theorem batchScanOrders_min (homes : List Entity) (hp : Pos) (r : Rider) :
    ∀ (os : List Order) (best : Option (Nat × Rider)) (o : Order) (dq : Nat),
      o ∈ os → OrderQualifies homes hp dq o →
      ∃ v w, batchScanOrders homes hp r os best = some (v, w) ∧ v ≤ dq := by
  intro os
  induction os with
  | nil => intro best o dq ho; simp at ho
  | cons o0 rest ih =>
    intro best o dq ho hq
    have hred : batchScanOrders homes hp r (o0 :: rest) best =
        batchScanOrders homes hp r rest (batchStep homes hp r o0 best) := by
      rw [batchScanOrders]
    rcases List.mem_cons.mp ho with h | h
    · subst h
      obtain ⟨v1, w1, hstep, hle1⟩ := batchStep_min homes hp r o best dq hq
      obtain ⟨v, w, hrec, hle⟩ := batchScanOrders_mono homes hp r rest _ v1 w1 hstep
      exact ⟨v, w, by rw [hred]; exact hrec, Nat.le_trans hle hle1⟩
    · obtain ⟨v, w, hrec, hle⟩ := ih (batchStep homes hp r o0 best) o dq h hq
      exact ⟨v, w, by rw [hred]; exact hrec, hle⟩

theorem batchScan_mono (homes : List Entity) (orders : List Order) (hp : Pos) :
    ∀ (rs : List Rider) (best : Option (Nat × Rider)) (md : Nat) (bp : Rider),
      best = some (md, bp) →
      ∃ v w, batchScan homes orders hp rs best = some (v, w) ∧ v ≤ md := by
  intro rs
  induction rs with
  | nil =>
    intro best md bp hb
    exact ⟨md, bp, by rw [batchScan, hb], le_refl _⟩
  | cons r rs' ih =>
    intro best md bp hb
    obtain ⟨v1, w1, hstep, hle1⟩ := batchScanOrders_mono homes hp r
      (orders.filter (fun o => r.assignedOrderIds.contains o.id)) best md bp hb
    obtain ⟨v, w, hrec, hle⟩ := ih _ v1 w1 hstep
    exact ⟨v, w, by rw [batchScan]; exact hrec, Nat.le_trans hle hle1⟩

theorem batchScan_reach (homes : List Entity) (orders : List Order) (hp : Pos) :
    ∀ (rs : List Rider) (best : Option (Nat × Rider)),
      batchScan homes orders hp rs best = best ∨
      ∃ d r, BatchQualifies homes orders hp rs d r ∧
        batchScan homes orders hp rs best = some (d, r) := by
  intro rs
  induction rs with
  | nil => intro best; exact Or.inl (by rw [batchScan])
  | cons r rs' ih =>
    intro best
    have hred : batchScan homes orders hp (r :: rs') best =
        batchScan homes orders hp rs'
          (batchScanOrders homes hp r
            (orders.filter (fun o => r.assignedOrderIds.contains o.id)) best) := by
      rw [batchScan]
    rcases ih (batchScanOrders homes hp r
        (orders.filter (fun o => r.assignedOrderIds.contains o.id)) best) with
      hsame | ⟨d, r', ⟨hmem, o', ho', hcontains, hq⟩, heq⟩
    · rw [hred, hsame]
      rcases batchScanOrders_reach homes hp r
          (orders.filter (fun o => r.assignedOrderIds.contains o.id)) best with
        hb | ⟨d, ⟨o, ho, hq⟩, heq⟩
      · exact Or.inl hb
      · refine Or.inr ⟨d, r, ⟨List.mem_cons_self _ _, o, ?_, ?_, hq⟩, heq⟩
        · exact (List.mem_filter.mp ho).1
        · exact (List.mem_filter.mp ho).2
    · exact Or.inr ⟨d, r', ⟨List.mem_cons_of_mem _ hmem, o', ho', hcontains, hq⟩,
        by rw [hred]; exact heq⟩

theorem batchScan_min (homes : List Entity) (orders : List Order) (hp : Pos) :
    ∀ (rs : List Rider) (best : Option (Nat × Rider)) (d : Nat) (r : Rider),
      BatchQualifies homes orders hp rs d r →
      ∃ v w, batchScan homes orders hp rs best = some (v, w) ∧ v ≤ d := by
  intro rs
  induction rs with
  | nil =>
    intro best d r hq
    exact absurd hq.1 (List.not_mem_nil r)
  | cons r0 rs' ih =>
    intro best d r hq
    obtain ⟨hmem, o, ho, hcontains, hoq⟩ := hq
    have hred : batchScan homes orders hp (r0 :: rs') best =
        batchScan homes orders hp rs'
          (batchScanOrders homes hp r0
            (orders.filter (fun oo => r0.assignedOrderIds.contains oo.id)) best) := by
      rw [batchScan]
    rcases List.mem_cons.mp hmem with h | h
    · subst h
      have hofilter : o ∈ orders.filter (fun oo => r.assignedOrderIds.contains oo.id) :=
        List.mem_filter.mpr ⟨ho, hcontains⟩
      obtain ⟨v1, w1, hstep, hle1⟩ := batchScanOrders_min homes hp r
        (orders.filter (fun oo => r.assignedOrderIds.contains oo.id)) best o d
        hofilter hoq
      obtain ⟨v, w, hrec, hle⟩ := batchScan_mono homes orders hp rs' _ v1 w1 hstep
      exact ⟨v, w, by rw [hred]; exact hrec, Nat.le_trans hle hle1⟩
    · obtain ⟨v, w, hrec, hle⟩ := ih _ d r ⟨h, o, ho, hcontains, hoq⟩
      exact ⟨v, w, by rw [hred]; exact hrec, hle⟩

/-- C7: when the batching scan of `createOrder` selects a rider, that
rider is active for the hotel with an existing batched home within the
threshold at the scan's detour `d`, `d` is minimal over all qualifying
`(detour, rider)` pairs, the new order id is appended to exactly that
rider's batch, and the order enters the collection already assigned to it —
all without consulting the idle pool, so this happens even when idle riders
exist. -/
theorem C7_theorem (fairnessMode : Bool) (fairnessPick : List Rider → Pos → Nat)
    (w : World) (newId homeId hotelId : Nat) (home hotel : Entity) (d : Nat) (br : Rider)
    (hhome : w.homes.find? (fun h => h.id = homeId) = some home)
    (hhotel : w.hotels.find? (fun h => h.id = hotelId) = some hotel)
    (hscan : batchScan w.homes w.orders home.pos
      (activeForHotel w.riders hotelId) none = some (d, br)) :
    (createOrder fairnessMode fairnessPick w newId homeId hotelId).riders =
      w.riders.map (fun r =>
        if r.id = br.id then { r with assignedOrderIds := r.assignedOrderIds ++ [newId] }
        else r) ∧
    (createOrder fairnessMode fairnessPick w newId homeId hotelId).orders =
      w.orders ++ [{
        id := newId, homeId := homeId, hotelId := hotelId,
        riderId := some br.id, status := OrderStatus.COOKING,
        cookingTimeRemainingMs := COOKING_TIME_MS }] ∧
    BatchQualifies w.homes w.orders home.pos (activeForHotel w.riders hotelId) d br ∧
    ∀ d' r', BatchQualifies w.homes w.orders home.pos
      (activeForHotel w.riders hotelId) d' r' → d ≤ d' := by
  have hcreate : createOrder fairnessMode fairnessPick w newId homeId hotelId =
      { w with
        riders := w.riders.map (fun r =>
          if r.id = br.id then { r with assignedOrderIds := r.assignedOrderIds ++ [newId] }
          else r),
        orders := w.orders ++ [{
          id := newId, homeId := homeId, hotelId := hotelId,
          riderId := some br.id, status := OrderStatus.COOKING,
          cookingTimeRemainingMs := COOKING_TIME_MS }] } := by
    rw [createOrder, hhome, hhotel]
    simp only [hscan]
  refine ⟨by rw [hcreate], by rw [hcreate], ?_, ?_⟩
  · rcases batchScan_reach w.homes w.orders home.pos
        (activeForHotel w.riders hotelId) none with hnone | ⟨d0, r0, hq, heq⟩
    · rw [hscan] at hnone
      exact absurd hnone (by simp)
    · rw [hscan] at heq
      have hd : d0 = d := (congrArg Prod.fst (Option.some.inj heq)).symm
      have hr : r0 = br := (congrArg Prod.snd (Option.some.inj heq)).symm
      rw [hd, hr] at hq
      exact hq
  · intro d' r' hq
    obtain ⟨v, w', heq, hle⟩ := batchScan_min w.homes w.orders home.pos
      (activeForHotel w.riders hotelId) none d' r' hq
    rw [hscan] at heq
    have hv : v = d := (congrArg Prod.fst (Option.some.inj heq)).symm
    rw [← hv]
    exact hle

/-- The rider already en route to hotel 1, batched with order 5 whose home
is at (3,3). -/
def c7ActiveRider : Rider := { baseRider with
  id := 1, status := RiderStatus.MOVING_TO_HOTEL,
  targetEntityId := some 1, assignedOrderIds := [5] }

/-- A world with an active rider for hotel 1 (batched home (3,3)) and a
second, idle rider; the new order's home (4,4) is 2 cells from (3,3). -/
def c7World : World := {
  riders := [c7ActiveRider, { baseRider with id := 2 }],
  orders := [{
    id := 5, homeId := 10, hotelId := 1, riderId := some 1,
    status := OrderStatus.COOKING, cookingTimeRemainingMs := 15000 }],
  hotels := [⟨1, ⟨0, 0⟩⟩], homes := [⟨10, ⟨3, 3⟩⟩, ⟨11, ⟨4, 4⟩⟩],
  walls := [], algorithm := Algorithm.DIJKSTRA,
  pathTrace := [], distanceTraveled := 0 }

/-- C7 witness: in `c7World` the new order batches onto the active rider
(detour 2) although an idle rider exists. -/
theorem C7_witness :
    idleOf c7World.riders ≠ [] ∧
    (createOrder false (fun _ _ => 0) c7World 99 11 1).riders =
      c7World.riders.map (fun r =>
        if r.id = c7ActiveRider.id then
          { r with assignedOrderIds := r.assignedOrderIds ++ [99] }
        else r) ∧
    (createOrder false (fun _ _ => 0) c7World 99 11 1).orders =
      c7World.orders ++ [{
        id := 99, homeId := 11, hotelId := 1,
        riderId := some c7ActiveRider.id, status := OrderStatus.COOKING,
        cookingTimeRemainingMs := COOKING_TIME_MS }] := by
  have h := C7_theorem false (fun _ _ => 0) c7World 99 11 1 ⟨11, ⟨4, 4⟩⟩ ⟨1, ⟨0, 0⟩⟩ 2
    c7ActiveRider (by decide) (by decide) (by decide)
  exact ⟨by decide, h.1, h.2.1⟩

/-- Default order for positional access. -/
def dummyOrder : Order := {
  id := 0, homeId := 0, hotelId := 0, riderId := none,
  status := OrderStatus.COOKING, cookingTimeRemainingMs := 0 }

theorem statusRank_le_two (st : OrderStatus) : statusRank st ≤ 2 := by
  cases st <;> simp [statusRank]

theorem getD_map_lt {α β : Type} (f : α → β) (l : List α) (d : β) (d' : α)
    (i : Nat) (h : i < l.length) : (l.map f).getD i d = f (l.getD i d') := by
  rw [List.getD_eq_getElem?_getD, List.getD_eq_getElem?_getD, List.getElem?_map,
    List.getElem?_eq_getElem h]
  rfl

/-- Positional tracking of an order-list transformation that never touches
an existing order's id, never lowers its status rank, and never changes its
cooking timer (appends allowed). -/
structure OrdTrack (os os' : List Order) : Prop where
  len : os.length ≤ os'.length
  idEq : ∀ i, i < os.length → (os'.getD i dummyOrder).id = (os.getD i dummyOrder).id
  rank : ∀ i, i < os.length →
    statusRank (os.getD i dummyOrder).status ≤ statusRank (os'.getD i dummyOrder).status
  cook : ∀ i, i < os.length →
    (os'.getD i dummyOrder).cookingTimeRemainingMs =
      (os.getD i dummyOrder).cookingTimeRemainingMs

/-- As `OrdTrack` but allowing the cooking timer to change. -/
structure OrdMono (os os' : List Order) : Prop where
  len : os.length ≤ os'.length
  idEq : ∀ i, i < os.length → (os'.getD i dummyOrder).id = (os.getD i dummyOrder).id
  rank : ∀ i, i < os.length →
    statusRank (os.getD i dummyOrder).status ≤ statusRank (os'.getD i dummyOrder).status

theorem ordTrack_refl (os : List Order) : OrdTrack os os :=
  ⟨le_refl _, fun _ _ => rfl, fun _ _ => le_refl _, fun _ _ => rfl⟩

theorem ordTrack_trans {a b c : List Order} (h1 : OrdTrack a b) (h2 : OrdTrack b c) :
    OrdTrack a c := by
  refine ⟨le_trans h1.len h2.len, ?_, ?_, ?_⟩
  · intro i hi
    rw [h2.idEq i (lt_of_lt_of_le hi h1.len), h1.idEq i hi]
  · intro i hi
    exact le_trans (h1.rank i hi) (h2.rank i (lt_of_lt_of_le hi h1.len))
  · intro i hi
    rw [h2.cook i (lt_of_lt_of_le hi h1.len), h1.cook i hi]

theorem ordTrack_to_mono {a b : List Order} (h : OrdTrack a b) : OrdMono a b :=
  ⟨h.len, h.idEq, h.rank⟩

theorem ordMono_trans {a b c : List Order} (h1 : OrdMono a b) (h2 : OrdMono b c) :
    OrdMono a c := by
  refine ⟨le_trans h1.len h2.len, ?_, ?_⟩
  · intro i hi
    rw [h2.idEq i (lt_of_lt_of_le hi h1.len), h1.idEq i hi]
  · intro i hi
    exact le_trans (h1.rank i hi) (h2.rank i (lt_of_lt_of_le hi h1.len))

theorem ordTrack_append (os more : List Order) : OrdTrack os (os ++ more) := by
  refine ⟨by simp, ?_, ?_, ?_⟩
  · intro i hi
    rw [List.getD_append os more dummyOrder i hi]
  · intro i hi
    exact le_of_eq (by rw [List.getD_append os more dummyOrder i hi])
  · intro i hi
    rw [List.getD_append os more dummyOrder i hi]

theorem updateFirst_length {α : Type} (p : α → Bool) (f : α → α) :
    ∀ l : List α, (updateFirst p f l).length = l.length := by
  intro l
  induction l with
  | nil => rfl
  | cons x xs ih =>
    rw [updateFirst]
    by_cases hp : p x
    · rw [if_pos hp, List.length_cons, List.length_cons]
    · rw [if_neg hp, List.length_cons, List.length_cons, ih]

theorem updateFirst_getD {α : Type} (p : α → Bool) (f : α → α) (d : α) :
    ∀ (l : List α) (i : Nat), i < l.length →
      (updateFirst p f l).getD i d = l.getD i d ∨
      (updateFirst p f l).getD i d = f (l.getD i d) := by
  intro l
  induction l with
  | nil => intro i hi; simp at hi
  | cons x xs ih =>
    intro i hi
    rw [updateFirst]
    by_cases hp : p x
    · rw [if_pos hp]
      cases i with
      | zero => exact Or.inr (by rw [List.getD_cons_zero, List.getD_cons_zero])
      | succ j => exact Or.inl (by rw [List.getD_cons_succ, List.getD_cons_succ])
    · rw [if_neg hp]
      cases i with
      | zero => exact Or.inl (by rw [List.getD_cons_zero, List.getD_cons_zero])
      | succ j =>
        rw [List.getD_cons_succ, List.getD_cons_succ]
        exact ih j (by simpa using Nat.lt_of_succ_lt_succ hi)

/-- `updateFirst` tracks orders whenever the update function keeps the id
and cooking timer and never lowers the status rank. -/
theorem updateFirst_track (p : Order → Bool) (f : Order → Order)
    (hf : ∀ o : Order, (f o).id = o.id ∧
      statusRank o.status ≤ statusRank (f o).status ∧
      (f o).cookingTimeRemainingMs = o.cookingTimeRemainingMs)
    (os : List Order) : OrdTrack os (updateFirst p f os) := by
  refine ⟨by rw [updateFirst_length], ?_, ?_, ?_⟩
  · intro i hi
    rcases updateFirst_getD p f dummyOrder os i hi with h | h
    · rw [h]
    · rw [h]
      exact (hf _).1
  · intro i hi
    rcases updateFirst_getD p f dummyOrder os i hi with h | h
    · exact le_of_eq (by rw [h])
    · rw [h]
      exact (hf _).2.1
  · intro i hi
    rcases updateFirst_getD p f dummyOrder os i hi with h | h
    · rw [h]
    · rw [h]
      exact (hf _).2.2

theorem deliverUpdate_fields (now : Nat) (hotels homes : List Entity) (o : Order) :
    (deliverUpdate now hotels homes o).id = o.id ∧
    statusRank o.status ≤ statusRank (deliverUpdate now hotels homes o).status ∧
    (deliverUpdate now hotels homes o).cookingTimeRemainingMs =
      o.cookingTimeRemainingMs := by
  simp only [deliverUpdate]
  repeat' split
  all_goals exact ⟨rfl, statusRank_le_two o.status, rfl⟩

theorem pickupFold_track (now : Nat) :
    ∀ (myOrders orders : List Order),
      OrdTrack orders (myOrders.foldl (fun os o =>
        updateFirst (fun no => no.id = o.id)
          (fun no => { no with pickupTime := some now }) os) orders) := by
  intro myOrders
  induction myOrders with
  | nil => intro orders; exact ordTrack_refl orders
  | cons o rest ih =>
    intro orders
    rw [List.foldl_cons]
    exact ordTrack_trans
      (updateFirst_track (fun no => no.id = o.id)
        (fun no => { no with pickupTime := some now })
        (fun no => ⟨rfl, le_refl _, rfl⟩) orders) (ih _)

theorem afterDeliver_orders (walls : List Pos) (algo : Algorithm)
    (hotels : List Entity) (rider2 : Rider) (orders2 : List Order) :
    (afterDeliver walls algo hotels rider2 orders2).2.1 = orders2 := by
  simp only [afterDeliver]
  repeat' split
  all_goals rfl

theorem tickRider_track (now : Nat) (hotels homes : List Entity) (walls : List Pos)
    (algo : Algorithm) (orders : List Order) (rider : Rider) :
    OrdTrack orders (tickRider now hotels homes walls algo orders rider).2.1 := by
  simp only [tickRider]
  repeat' split
  all_goals first
    | exact ordTrack_refl orders
    | exact pickupFold_track now _ orders
    | (rw [afterDeliver_orders]
       exact ordTrack_refl orders)
    | (rw [afterDeliver_orders]
       exact updateFirst_track _ (deliverUpdate now hotels homes)
         (fun o => deliverUpdate_fields now hotels homes o) orders)

theorem tickRiders_track (now : Nat) (hotels homes : List Entity) (walls : List Pos)
    (algo : Algorithm) :
    ∀ (riders : List Rider) (orders : List Order),
      OrdTrack orders (tickRiders now hotels homes walls algo riders orders).2.1 := by
  intro riders
  induction riders with
  | nil => intro orders; exact ordTrack_refl orders
  | cons r rs ih =>
    intro orders
    rw [tickRiders]
    rcases htr : tickRider now hotels homes walls algo orders r with ⟨r', orders1, d1, t1⟩
    dsimp only
    have h1 : OrdTrack orders orders1 := by
      have h := tickRider_track now hotels homes walls algo orders r
      rw [htr] at h
      exact h
    rcases htrs : tickRiders now hotels homes walls algo rs orders1 with
      ⟨rs', orders2, d2, t2⟩
    dsimp only
    have h2 : OrdTrack orders1 orders2 := by
      have h := ih orders1
      rw [htrs] at h
      exact h
    exact ordTrack_trans h1 h2

theorem updateFirst_track_riderId (p : Order → Bool) (rid : Option Nat)
    (os : List Order) :
    OrdTrack os (updateFirst p (fun o => { o with riderId := rid }) os) :=
  updateFirst_track p (fun o => { o with riderId := rid })
    (fun _ => ⟨rfl, le_refl _, rfl⟩) os

theorem dispatchOne_track (fairnessMode : Bool) (hotels : List Entity)
    (walls : List Pos) (algo : Algorithm) (riders : List Rider)
    (orders : List Order) (order : Order) :
    OrdTrack orders
      (dispatchOne fairnessMode hotels walls algo (riders, orders) order).2 := by
  simp only [dispatchOne]
  repeat' split
  all_goals first
    | exact ordTrack_refl orders
    | exact updateFirst_track_riderId _ _ orders

theorem dispatchFold_track (fairnessMode : Bool) (hotels : List Entity)
    (walls : List Pos) (algo : Algorithm) :
    ∀ (pending : List Order) (riders : List Rider) (orders : List Order),
      OrdTrack orders
        (pending.foldl (dispatchOne fairnessMode hotels walls algo)
          (riders, orders)).2 := by
  intro pending
  induction pending with
  | nil => intro riders orders; exact ordTrack_refl orders
  | cons o rest ih =>
    intro riders orders
    rw [List.foldl_cons]
    rcases hstep : dispatchOne fairnessMode hotels walls algo (riders, orders) o with
      ⟨riders1, orders1⟩
    have h1 : OrdTrack orders orders1 := by
      have h := dispatchOne_track fairnessMode hotels walls algo riders orders o
      rw [hstep] at h
      exact h
    exact ordTrack_trans h1 (ih riders1 orders1)

theorem dispatchPending_track (fairnessMode : Bool) (hotels : List Entity)
    (walls : List Pos) (algo : Algorithm) (riders : List Rider) (orders : List Order) :
    OrdTrack orders (dispatchPending fairnessMode hotels walls algo riders orders).2 := by
  simp only [dispatchPending]
  repeat' split
  all_goals first
    | exact ordTrack_refl orders
    | exact dispatchFold_track fairnessMode hotels walls algo _ riders orders

theorem applyDemo_track (demo : Option (List Order × List Rider))
    (riders : List Rider) (orders : List Order) :
    OrdTrack orders (applyDemo demo riders orders).2 := by
  simp only [applyDemo]
  repeat' split
  all_goals first
    | exact ordTrack_refl orders
    | exact ordTrack_append orders _

/-- Everything after the cooking pass of one tick only tracks orders:
ids and cooking timers of already-present orders are untouched and status
ranks never decrease. -/
theorem handleSimulationTick_orders (now : Nat) (fairnessMode : Bool)
    (demo : Option (List Order × List Rider)) (w : World) :
    OrdTrack (w.orders.map cookOrder) (handleSimulationTick now fairnessMode demo w).orders := by
  rw [handleSimulationTick]
  rcases htr : tickRiders now w.hotels w.homes w.walls w.algorithm w.riders
      (w.orders.map cookOrder) with ⟨riders1, orders1, dD, tr⟩
  dsimp only
  have h1 : OrdTrack (w.orders.map cookOrder) orders1 := by
    have h := tickRiders_track now w.hotels w.homes w.walls w.algorithm w.riders
      (w.orders.map cookOrder)
    rw [htr] at h
    exact h
  rcases hdp : dispatchPending fairnessMode w.hotels w.walls w.algorithm riders1 orders1
    with ⟨riders2, orders2⟩
  dsimp only
  have h2 : OrdTrack orders1 orders2 := by
    have h := dispatchPending_track fairnessMode w.hotels w.walls w.algorithm riders1 orders1
    rw [hdp] at h
    exact h
  rcases hdm : applyDemo demo riders2 orders2 with ⟨riders3, orders3⟩
  dsimp only
  have h3 : OrdTrack orders2 orders3 := by
    have h := applyDemo_track demo riders2 orders2
    rw [hdm] at h
    exact h
  exact ordTrack_trans h1 (ordTrack_trans h2 h3)

theorem cookOrder_id (o : Order) : (cookOrder o).id = o.id := by
  rw [cookOrder]
  split <;> rfl

theorem cookOrder_rank (o : Order) : statusRank o.status ≤ statusRank (cookOrder o).status := by
  rw [cookOrder]
  split
  · rename_i h
    rw [h]
    exact Nat.zero_le _
  · exact le_refl _

theorem cookMap_mono (os : List Order) : OrdMono os (os.map cookOrder) := by
  refine ⟨by rw [List.length_map], ?_, ?_⟩
  · intro i hi
    rw [getD_map_lt cookOrder os dummyOrder dummyOrder i hi]
    exact cookOrder_id _
  · intro i hi
    rw [getD_map_lt cookOrder os dummyOrder dummyOrder i hi]
    exact cookOrder_rank _

theorem handleSimulationTick_mono (now : Nat) (fairnessMode : Bool)
    (demo : Option (List Order × List Rider)) (w : World) :
    OrdMono w.orders (handleSimulationTick now fairnessMode demo w).orders :=
  ordMono_trans (cookMap_mono w.orders)
    (ordTrack_to_mono (handleSimulationTick_orders now fairnessMode demo w))

theorem createOrder_track (fairnessMode : Bool) (fairnessPick : List Rider → Pos → Nat)
    (w : World) (newId homeId hotelId : Nat) :
    OrdTrack w.orders (createOrder fairnessMode fairnessPick w newId homeId hotelId).orders := by
  simp only [createOrder]
  repeat' split
  all_goals first
    | exact ordTrack_refl w.orders
    | exact ordTrack_append w.orders _

theorem runOps_mono : ∀ (ops : List SimOp) (w : World),
    OrdMono w.orders (runOps w ops).orders := by
  intro ops
  induction ops with
  | nil => intro w; exact ⟨le_refl _, fun _ _ => rfl, fun _ _ => le_refl _⟩
  | cons op rest ih =>
    intro w
    cases op with
    | tick now fm demo =>
      exact ordMono_trans (handleSimulationTick_mono now fm demo w)
        (ih (handleSimulationTick now fm demo w))
    | create fm fp newId homeId hotelId =>
      exact ordMono_trans
        (ordTrack_to_mono (createOrder_track fm fp w newId homeId hotelId))
        (ih (createOrder fm fp w newId homeId hotelId))

theorem cookOrder_cooking (o : Order) (h : o.status = OrderStatus.COOKING) :
    (cookOrder o).cookingTimeRemainingMs = o.cookingTimeRemainingMs - DELAY_MS := by
  rw [cookOrder, if_pos h]

/-- C8: across every sequence of ticks and order creations, each order
keeps its id and its status only ever moves forward along
COOKING → READY → DELIVERED; and each tick decrements the cooking timer of
every COOKING order by exactly `DELAY_MS`, clamped at zero (the `Nat`
truncated subtraction is the `Math.max(0, ...)` clamp). -/
theorem C8_theorem :
    (∀ (w : World) (ops : List SimOp) (i : Nat), i < w.orders.length →
      ((runOps w ops).orders.getD i dummyOrder).id = (w.orders.getD i dummyOrder).id ∧
      statusRank (w.orders.getD i dummyOrder).status ≤
        statusRank ((runOps w ops).orders.getD i dummyOrder).status) ∧
    (∀ (now : Nat) (fm : Bool) (demo : Option (List Order × List Rider))
      (w : World) (i : Nat), i < w.orders.length →
      (w.orders.getD i dummyOrder).status = OrderStatus.COOKING →
      ((handleSimulationTick now fm demo w).orders.getD i
        dummyOrder).cookingTimeRemainingMs =
        (w.orders.getD i dummyOrder).cookingTimeRemainingMs - DELAY_MS) := by
  constructor
  · intro w ops i hi
    exact ⟨(runOps_mono ops w).idEq i hi, (runOps_mono ops w).rank i hi⟩
  · intro now fm demo w i hi hcook
    have htrack := handleSimulationTick_orders now fm demo w
    have hlen : i < (w.orders.map cookOrder).length := by
      rw [List.length_map]
      exact hi
    rw [htrack.cook i hlen, getD_map_lt cookOrder w.orders dummyOrder dummyOrder i hi,
      cookOrder_cooking _ hcook]

/-- A riderless world holding a single freshly created (COOKING) order. -/
def c8World : World := {
  riders := [], orders := [{
    id := 7, homeId := 10, hotelId := 1, riderId := some 1,
    status := OrderStatus.COOKING, cookingTimeRemainingMs := 15000 }],
  hotels := [⟨1, ⟨5, 5⟩⟩], homes := [⟨10, ⟨6, 6⟩⟩],
  walls := [], algorithm := Algorithm.DIJKSTRA,
  pathTrace := [], distanceTraveled := 0 }

/-- C8 witness: one tick on `c8World` keeps the order's id, never lowers
its status rank, and decrements its cooking timer by `DELAY_MS`. -/
theorem C8_witness :
    ((runOps c8World [SimOp.tick 0 false none]).orders.getD 0 dummyOrder).id =
      (c8World.orders.getD 0 dummyOrder).id ∧
    statusRank (c8World.orders.getD 0 dummyOrder).status ≤
      statusRank ((runOps c8World [SimOp.tick 0 false none]).orders.getD 0
        dummyOrder).status ∧
    ((handleSimulationTick 0 false none c8World).orders.getD 0
      dummyOrder).cookingTimeRemainingMs =
      (c8World.orders.getD 0 dummyOrder).cookingTimeRemainingMs - DELAY_MS :=
  ⟨(C8_theorem.1 c8World [SimOp.tick 0 false none] 0 (by decide)).1,
   (C8_theorem.1 c8World [SimOp.tick 0 false none] 0 (by decide)).2,
   C8_theorem.2 0 false none c8World 0 (by decide) (by decide)⟩

end LogiX
